import Mathlib

/-!
Verification of the drug-mention graph core of MedicalResearchStudy.

The definitions below are a shallow embedding of
`src/drug_graph_generator/processing.py` (graph builder),
`src/drug_graph_generator/adhoc_queries.py` (queries) and
`src/drug_graph_generator/utils.py` (date parsing).

Python dictionaries are modelled as insertion-ordered association lists
with unique keys (Python dict semantics: updating an existing key keeps
its position, a new key is appended at the end).  Python values of mixed
type are modelled by `PyVal`; raising `KeyError` / `AttributeError` is
modelled by `Except String`.  Character classes (`\w`, `\s`, `str.lower`)
are modelled over their ASCII meaning, which is what the repository's
normalized data exercises.
-/

namespace DrugGraph

/-- A dynamically typed Python value (the subset the claims need). -/
inductive PyVal where
  | str (s : String)
  | pyNone
  | int (n : Int)
  deriving DecidableEq, Repr

/-- Lookup in an insertion-ordered association list (Python `d[k]` /
`d.get(k)` on a dict with unique keys: the first binding wins). -/
def alookup {α β : Type} [DecidableEq α] : List (α × β) → α → Option β
  | [], _ => none
  | (k, v) :: rest, a => if k = a then some v else alookup rest a

/-! ## Word-boundary matching: `re.search(r'\b' + re.escape(drug) + r'\b', title)`

`re.escape` makes the drug name a literal character sequence, so the
compiled pattern is exactly: literal `drug` with a `\b` assertion on each
side.  `\b` holds at a position iff exactly one of the two surrounding
characters is a word character (`[A-Za-z0-9_]` in the ASCII model), with
positions outside the string counting as non-word. -/

/-- A regex word character (`\w`, ASCII model). -/
def isWordChar (c : Char) : Bool := c.isAlphanum || c = '_'

/-- Whether the character at index `i` of `t` exists and is a word
character; out-of-range positions count as non-word. -/
def wordAt (t : List Char) (i : Nat) : Bool :=
  match t[i]? with
  | some c => isWordChar c
  | none => false

/-- The `\b` assertion at gap position `p` (between `t[p-1]` and `t[p]`). -/
def boundaryAt (t : List Char) (p : Nat) : Bool :=
  (if p = 0 then false else wordAt t (p - 1)) != wordAt t p

/-- The escaped pattern `\b drug \b` matches `t` at start index `i`. -/
def regexMatchAt (e t : List Char) (i : Nat) : Bool :=
  decide ((t.drop i).take e.length = e) && boundaryAt t i &&
    boundaryAt t (i + e.length)

/-- `re.search` of the escaped, `\b`-bounded pattern over the title. -/
def reSearchWord (e t : List Char) : Bool :=
  (List.range (t.length + 1)).any (regexMatchAt e t)

/-! ## The graph builder (`processing.build_drug_mention_graph`) -/

/-- A publication object as received by the builder: a Python dict with
string keys and arbitrary values. -/
abbrev Record := List (String × PyVal)

/-- One occurrence record (`publication_details` in the source). -/
structure Occ where
  date : PyVal
  publication_title : PyVal
  source_type : PyVal
  source_id : PyVal
  deriving DecidableEq, Repr

/-- Journal-name → occurrence-list level of the graph. -/
abbrev JMap := List (PyVal × List Occ)

/-- Drug-name → journal-map level of the graph. -/
abbrev Graph := List (String × JMap)

/-- Append the occurrence to the bucket unless an equal one is present
(the `if publication_details not in ...: append` dedup check). -/
def bucketInsert (b : List Occ) (o : Occ) : List Occ :=
  if o ∈ b then b else b ++ [o]

/-- Insert the occurrence under journal `j`, creating the bucket lazily
(Python dict: update in place, or append a new key at the end). -/
def jmapInsert : JMap → PyVal → Occ → JMap
  | [], j, o => [(j, [o])]
  | (k, b) :: rest, j, o =>
    if k = j then (k, bucketInsert b o) :: rest
    else (k, b) :: jmapInsert rest j o

/-- Insert the occurrence under drug `d` and journal `j`, creating both
levels lazily. -/
def graphInsert : Graph → String → PyVal → Occ → Graph
  | [], d, j, o => [(d, [(j, [o])])]
  | (k, jm) :: rest, d, j, o =>
    if k = d then (k, jmapInsert jm j o) :: rest
    else (k, jm) :: graphInsert rest d j o

/-- The builder's title check: `pub.get("title")` must be a truthy string
(`if pub_title_normalized and isinstance(pub_title_normalized, str)`). -/
def titleVal (p : Record) : Option String :=
  match alookup p "title" with
  | some (.str s) => if s = "" then none else some s
  | _ => none

/-- Whether the drug's `\b`-bounded pattern fires on the record's title
(false when the title is missing, empty, or not a string). -/
def matchesRec (d : String) (p : Record) : Bool :=
  match titleVal p with
  | some t => reSearchWord d.data t.data
  | none => false

/-- Python `pub[k]`: raises `KeyError` when the key is absent. -/
def getKey (p : Record) (k : String) : Except String PyVal :=
  match alookup p k with
  | some v => .ok v
  | none => .error k

/-- Evaluate `pub["journal"]` and build `publication_details`, in the
source's field-access order; any missing field raises. -/
def recOcc (p : Record) : Except String (PyVal × Occ) := do
  let j ← getKey p "journal"
  let dt ← getKey p "date"
  let ot ← getKey p "original_title"
  let st ← getKey p "source_type"
  let sid ← getKey p "id"
  pure (j, ⟨dt, ot, st, sid⟩)

/-- The body of the inner loop of `build_drug_mention_graph` for a fixed
drug: skip non-matching records, otherwise insert the occurrence. -/
def processPub (d : String) (g : Graph) (p : Record) : Except String Graph :=
  if matchesRec d p then do
    let (j, o) ← recOcc p
    pure (graphInsert g d j o)
  else pure g

/-- `build_drug_mention_graph`: outer loop over drugs (skipping falsy,
i.e. empty, names), inner loop over publications. -/
def build_drug_mention_graph (drugs : List String) (pubs : List Record) :
    Except String Graph :=
  drugs.foldlM
    (fun g d => if d = "" then pure g else pubs.foldlM (processPub d) g) []

/-! ## Date parsing (`utils.parse_date`)

`datetime.strptime` is modelled per CPython's `_strptime`: `%d` matches
one or two digits with value 1–31, `%m` one or two digits with value
1–12, `%Y` exactly four digits, `%B`/`%b` case-insensitive month names,
a literal space matches one or more whitespace characters, the whole
string must be consumed, and the resulting `datetime(y, m, d)` must be a
valid calendar date (otherwise `ValueError`, i.e. the format fails). -/

/-- The `UNKNOWN_DATE_PLACEHOLDER` constant from `config.py`. -/
def UNKNOWN_DATE_PLACEHOLDER : String := "UNKNOWN_DATE"

/-- Python regex `\s` over ASCII. -/
def pySpace (c : Char) : Bool :=
  c = ' ' || c = '\t' || c = '\n' || c = '\r' || c = '\x0b' || c = '\x0c'

/-- Strip leading and trailing whitespace (Python `str.strip()`). -/
def trimChars (l : List Char) : List Char :=
  ((l.dropWhile pySpace).reverse.dropWhile pySpace).reverse

/-- `date_str.replace(',', '').strip()`. -/
def preprocessDate (s : String) : String :=
  String.mk (trimChars (s.data.filter (fun c => c ≠ ',')))

/-- Numeric value of a digit character. -/
def digitVal (c : Char) : Nat := c.toNat - 48

/-- `%d` (regex `3[01]|[12]\d|0[1-9]|[1-9]`): two digits when the value
is 1–31, else a single digit 1–9. -/
def parseDay : List Char → Option (Nat × List Char)
  | c1 :: c2 :: rest =>
    if c1.isDigit && c2.isDigit then
      let v := digitVal c1 * 10 + digitVal c2
      if 1 ≤ v ∧ v ≤ 31 then some (v, rest)
      else if c1 ≠ '0' then some (digitVal c1, c2 :: rest)
      else none
    else if c1.isDigit && c1 ≠ '0' then some (digitVal c1, c2 :: rest)
    else none
  | [c1] => if c1.isDigit && c1 ≠ '0' then some (digitVal c1, []) else none
  | [] => none

/-- `%m` (regex `1[0-2]|0[1-9]|[1-9]`): two digits when the value is
1–12, else a single digit 1–9. -/
def parseMonthNum : List Char → Option (Nat × List Char)
  | c1 :: c2 :: rest =>
    if c1.isDigit && c2.isDigit then
      let v := digitVal c1 * 10 + digitVal c2
      if 1 ≤ v ∧ v ≤ 12 then some (v, rest)
      else if c1 ≠ '0' then some (digitVal c1, c2 :: rest)
      else none
    else if c1.isDigit && c1 ≠ '0' then some (digitVal c1, c2 :: rest)
    else none
  | [c1] => if c1.isDigit && c1 ≠ '0' then some (digitVal c1, []) else none
  | [] => none

/-- `%Y`: exactly four digits. -/
def parseYear4 : List Char → Option (Nat × List Char)
  | c1 :: c2 :: c3 :: c4 :: rest =>
    if c1.isDigit && c2.isDigit && c3.isDigit && c4.isDigit then
      some (((digitVal c1 * 10 + digitVal c2) * 10 + digitVal c3) * 10 +
        digitVal c4, rest)
    else none
  | _ => none

/-- A literal format character. -/
def parseLit (c : Char) : List Char → Option (List Char)
  | x :: rest => if x = c then some rest else none
  | [] => none

/-- A literal space in the format: `\s+` (one or more whitespace). -/
def parseWs : List Char → Option (List Char)
  | c :: rest => if pySpace c then some (rest.dropWhile pySpace) else none
  | [] => none

/-- Case-insensitive literal match of a (lowercase) name. -/
def matchNameCI : List Char → List Char → Option (List Char)
  | [], rest => some rest
  | _ :: _, [] => none
  | n :: ns, c :: cs => if c.toLower = n then matchNameCI ns cs else none

/-- Full month names (`%B`), lowercase, with their numbers. -/
def monthFullNames : List (String × Nat) :=
  [("january", 1), ("february", 2), ("march", 3), ("april", 4),
   ("may", 5), ("june", 6), ("july", 7), ("august", 8),
   ("september", 9), ("october", 10), ("november", 11), ("december", 12)]

/-- Abbreviated month names (`%b`), lowercase, with their numbers. -/
def monthAbbrNames : List (String × Nat) :=
  [("jan", 1), ("feb", 2), ("mar", 3), ("apr", 4), ("may", 5), ("jun", 6),
   ("jul", 7), ("aug", 8), ("sep", 9), ("oct", 10), ("nov", 11), ("dec", 12)]

/-- Try each name of the table against the input (case-insensitively). -/
def parseMonthName : List (String × Nat) → List Char → Option (Nat × List Char)
  | [], _ => none
  | (nm, v) :: rest, l =>
    match matchNameCI nm.data l with
    | some r => some (v, r)
    | none => parseMonthName rest l

/-- The eight formats of `formats_to_try`, in source order. -/
inductive DateFmt where
  | dmY   -- "%d/%m/%Y"
  | mdY   -- "%m/%d/%Y"
  | Ymd   -- "%Y-%m-%d"
  | Ydm   -- "%Y-%d-%m"
  | dBY   -- "%d %B %Y"
  | BdY   -- "%B %d %Y"
  | dbY   -- "%d %b %Y"
  | bdY   -- "%b %d %Y"
  deriving DecidableEq, Repr

/-- Run one format's directive sequence, requiring full consumption;
returns `(year, month, day)`. -/
def runFmt (f : DateFmt) (l : List Char) : Option (Nat × Nat × Nat) :=
  match f with
  | .dmY => do
    let (d, r1) ← parseDay l
    let r2 ← parseLit '/' r1
    let (m, r3) ← parseMonthNum r2
    let r4 ← parseLit '/' r3
    let (y, r5) ← parseYear4 r4
    if r5 = [] then some (y, m, d) else none
  | .mdY => do
    let (m, r1) ← parseMonthNum l
    let r2 ← parseLit '/' r1
    let (d, r3) ← parseDay r2
    let r4 ← parseLit '/' r3
    let (y, r5) ← parseYear4 r4
    if r5 = [] then some (y, m, d) else none
  | .Ymd => do
    let (y, r1) ← parseYear4 l
    let r2 ← parseLit '-' r1
    let (m, r3) ← parseMonthNum r2
    let r4 ← parseLit '-' r3
    let (d, r5) ← parseDay r4
    if r5 = [] then some (y, m, d) else none
  | .Ydm => do
    let (y, r1) ← parseYear4 l
    let r2 ← parseLit '-' r1
    let (d, r3) ← parseDay r2
    let r4 ← parseLit '-' r3
    let (m, r5) ← parseMonthNum r4
    if r5 = [] then some (y, m, d) else none
  | .dBY => do
    let (d, r1) ← parseDay l
    let r2 ← parseWs r1
    let (m, r3) ← parseMonthName monthFullNames r2
    let r4 ← parseWs r3
    let (y, r5) ← parseYear4 r4
    if r5 = [] then some (y, m, d) else none
  | .BdY => do
    let (m, r1) ← parseMonthName monthFullNames l
    let r2 ← parseWs r1
    let (d, r3) ← parseDay r2
    let r4 ← parseWs r3
    let (y, r5) ← parseYear4 r4
    if r5 = [] then some (y, m, d) else none
  | .dbY => do
    let (d, r1) ← parseDay l
    let r2 ← parseWs r1
    let (m, r3) ← parseMonthName monthAbbrNames r2
    let r4 ← parseWs r3
    let (y, r5) ← parseYear4 r4
    if r5 = [] then some (y, m, d) else none
  | .bdY => do
    let (m, r1) ← parseMonthName monthAbbrNames l
    let r2 ← parseWs r1
    let (d, r3) ← parseDay r2
    let r4 ← parseWs r3
    let (y, r5) ← parseYear4 r4
    if r5 = [] then some (y, m, d) else none

/-- Gregorian leap year. -/
def isLeap (y : Nat) : Bool := (y % 4 = 0 && y % 100 ≠ 0) || y % 400 = 0

/-- Days in a month. -/
def daysInMonth (y m : Nat) : Nat :=
  if m = 2 then (if isLeap y then 29 else 28)
  else if m = 4 || m = 6 || m = 9 || m = 11 then 30
  else 31

/-- `datetime(y, m, d)` constructor validity. -/
def validDate (y m d : Nat) : Bool :=
  1 ≤ y && y ≤ 9999 && 1 ≤ m && m ≤ 12 && 1 ≤ d && d ≤ daysInMonth y m

/-- `datetime.strptime(s, f)` succeeding without `ValueError`. -/
def strptimeValid (f : DateFmt) (s : String) : Option (Nat × Nat × Nat) :=
  match runFmt f s.data with
  | some (y, m, d) => if validDate y m d then some (y, m, d) else none
  | none => none

/-- Zero-pad to two digits. -/
def pad2 (n : Nat) : String := if n < 10 then "0" ++ toString n else toString n

/-- Zero-pad to four digits. -/
def pad4 (n : Nat) : String :=
  if n < 10 then "000" ++ toString n
  else if n < 100 then "00" ++ toString n
  else if n < 1000 then "0" ++ toString n
  else toString n

/-- `dt_obj.strftime("%Y-%m-%d")`. -/
def isoStr (y m d : Nat) : String := pad4 y ++ "-" ++ pad2 m ++ "-" ++ pad2 d

/-- The source's `formats_to_try` list, in order. -/
def formats_to_try : List DateFmt :=
  [.dmY, .mdY, .Ymd, .Ydm, .dBY, .BdY, .dbY, .bdY]

/-- The `for fmt in formats_to_try` loop: first successful parse wins. -/
def tryFormats : List DateFmt → String → Option String
  | [], _ => none
  | f :: rest, s =>
    match strptimeValid f s with
    | some (y, m, d) => some (isoStr y m d)
    | none => tryFormats rest s

/-- `utils.parse_date`: placeholder for falsy or non-string input and for
input that becomes empty after comma-stripping/trimming; otherwise the
first successful format reformatted, falling back to the processed
string. -/
def parse_date (v : PyVal) : String :=
  match v with
  | .str s =>
    if s = "" then UNKNOWN_DATE_PLACEHOLDER
    else if preprocessDate s = "" then UNKNOWN_DATE_PLACEHOLDER
    else
      match tryFormats formats_to_try (preprocessDate s) with
      | some out => out
      | none => preprocessDate s
  | _ => UNKNOWN_DATE_PLACEHOLDER

/-! ## The ad-hoc queries (`adhoc_queries.py`)

These operate on a graph as loaded from JSON: drug name → journal name →
list of mention dicts.  A mention is a Python dict with string keys and
arbitrary values. -/

/-- A mention dict as loaded from JSON. -/
abbrev Mention := List (String × PyVal)

/-- Journal level of a loaded graph. -/
abbrev QJMap := List (String × List Mention)

/-- A loaded drug-mention graph. -/
abbrev QGraph := List (String × QJMap)

/-- `pattern.isPrefixOf text` by explicit character comparison. -/
def listStarts : List Char → List Char → Bool
  | [], _ => true
  | _ :: _, [] => false
  | a :: as, b :: bs => decide (a = b) && listStarts as bs

/-- Python `s.startswith(pat)`. -/
def strStarts (s pat : String) : Bool := listStarts pat.data s.data

/-- Python `d.get(k, default)`. -/
def pyGetDefault (m : Mention) (k : String) (dflt : PyVal) : PyVal :=
  match alookup m k with
  | some v => v
  | none => dflt

/-- Python `v.startswith("...")` on a dynamically typed value: raises
`AttributeError` unless the value is a string. -/
def pyStartsWith (v : PyVal) (pat : String) : Except String Bool :=
  match v with
  | .str s => .ok (strStarts s pat)
  | _ => .error "AttributeError"

/-- `mention.get("source_type", "").startswith("pubmed")`. -/
def mentionCheck (m : Mention) : Except String Bool :=
  pyStartsWith (pyGetDefault m "source_type" (.str "")) "pubmed"

/-- The `for mention in mentions: if ...: break` scan: stops at the first
pubmed-sourced mention, propagating a type error if one is hit first. -/
def anyPubmed : List Mention → Except String Bool
  | [] => .ok false
  | m :: rest => do
    let b ← mentionCheck m
    if b then pure true else anyPubmed rest

/-- Python `set.add` on a set modelled as a first-insertion-ordered
duplicate-free list. -/
def setAdd {α : Type} [DecidableEq α] (l : List α) (a : α) : List α :=
  if a ∈ l then l else l ++ [a]

/-- `journal_to_drugs_mentioned[journal_name].add(drug_name)` on the
`defaultdict(set)`. -/
def jtdAdd : List (String × List String) → String → String →
    List (String × List String)
  | [], j, d => [(j, [d])]
  | (k, s) :: rest, j, d =>
    if k = j then (k, setAdd s d) :: rest
    else (k, s) :: jtdAdd rest j d

/-- The accumulation loop of `find_journal_with_most_unique_drugs`. -/
def journalToDrugs (g : QGraph) : List (String × List String) :=
  g.foldl (fun m e => e.2.foldl (fun m2 je => jtdAdd m2 je.1 e.1) m) []

/-- One step of the maximum scan (`if current_drug_count > max_drugs_count`). -/
def scanStep (acc : Option String × Int) (e : String × List String) :
    Option String × Int :=
  if (e.2.length : Int) > acc.2 then (some e.1, (e.2.length : Int)) else acc

/-- `adhoc_queries.find_journal_with_most_unique_drugs`. -/
def find_journal_with_most_unique_drugs (g : QGraph) : Option String :=
  if g.isEmpty then none
  else if (journalToDrugs g).isEmpty then none
  else ((journalToDrugs g).foldl scanStep (none, -1)).1

/-- ASCII lowercase of one character (Python `str.lower` restricted to
the ASCII range the data uses). -/
def asciiLower (c : Char) : Char :=
  if 'A' ≤ c ∧ c ≤ 'Z' then Char.ofNat (c.toNat + 32) else c

/-- `target_drug_name.lower().strip()`. -/
def pynorm (s : String) : String :=
  String.mk (trimChars (s.data.map asciiLower))

/-- Step 1 of `find_related_drugs_by_pubmed_journals`: the journals in
which the target drug has at least one pubmed-sourced mention. -/
def pjScan (tjm : QJMap) : Except String (List String) :=
  tjm.foldlM
    (fun acc je => do
      let b ← anyPubmed je.2
      pure (if b then setAdd acc je.1 else acc)) ([] : List String)

/-- Steps 2–3 of `find_related_drugs_by_pubmed_journals`: scan every
other drug for a pubmed-sourced mention in one of the target's pubmed
journals. -/
def relScan (g : QGraph) (t : String) (pj : List String) :
    Except String (List String) :=
  g.foldlM
    (fun acc e =>
      if e.1 = t then pure acc
      else
        e.2.foldlM
          (fun acc2 je =>
            if je.1 ∈ pj then do
              let b ← anyPubmed je.2
              pure (if b then setAdd acc2 e.1 else acc2)
            else pure acc2) acc) ([] : List String)

/-- `adhoc_queries.find_related_drugs_by_pubmed_journals`.  The returned
set is modelled as a first-insertion-ordered duplicate-free list; a
`source_type` of non-string type raises when reached. -/
def find_related_drugs_by_pubmed_journals (g : QGraph) (target : String) :
    Except String (List String) :=
  if g.isEmpty then .ok []
  else
    match alookup g (pynorm target) with
    | none => .ok []
    | some tjm => do
      let pj ← pjScan tjm
      if pj = [] then pure []
      else relScan g (pynorm target) pj

/-! ## Spec-side definitions

These render the specification's wording, for comparison with the
implementation definitions above. -/

/-- Spec wording for whole-word matching: the entity appears at `i` and
is bounded by non-word characters or string boundaries on both sides. -/
def specBoundedAt (e t : List Char) (i : Nat) : Bool :=
  decide ((t.drop i).take e.length = e) &&
    (decide (i = 0) || !wordAt t (i - 1)) &&
    (decide (i + e.length = t.length) || !wordAt t (i + e.length))

/-- Spec wording for matching: some position of `t` carries a bounded
occurrence of `e`. -/
def specSearch (e t : List Char) : Bool :=
  (List.range (t.length + 1)).any (specBoundedAt e t)

/-- The first character exists and is a word character. -/
def headIsWord (l : List Char) : Bool :=
  match l.head? with
  | some c => isWordChar c
  | none => false

/-- The last character exists and is a word character. -/
def lastIsWord (l : List Char) : Bool :=
  match l.getLast? with
  | some c => isWordChar c
  | none => false

/-- An occurrence record sits in the bucket of drug `d` and journal `j`. -/
def occIn (g : Graph) (d : String) (j : PyVal) (o : Occ) : Prop :=
  ∃ jm b, alookup g d = some jm ∧ alookup jm j = some b ∧ o ∈ b

/-- A journal key exists under a drug key. -/
def jkeyIn (g : Graph) (d : String) (j : PyVal) : Prop :=
  ∃ jm, alookup g d = some jm ∧ (alookup jm j).isSome

/-- The record carries the five fields the builder reads on a match. -/
def hasCoreFields (p : Record) : Prop :=
  (alookup p "journal").isSome ∧ (alookup p "date").isSome ∧
    (alookup p "original_title").isSome ∧ (alookup p "source_type").isSome ∧
    (alookup p "id").isSome

instance (p : Record) : Decidable (hasCoreFields p) := by
  unfold hasCoreFields
  infer_instance

/-- Spec wording for one mention counting as pubmed-sourced: its
`source_type` is a string starting with `"pubmed"` (a missing
`source_type` reads as `""` and never qualifies). -/
def mentionIsPubmed (m : Mention) : Bool :=
  match alookup m "source_type" with
  | some (.str s) => strStarts s "pubmed"
  | _ => false

/-- First-occurrence deduplication of a list (the order in which distinct
values are first encountered). -/
def dedupFirst (l : List String) : List String := l.foldl setAdd []

/-- The journals of a loaded graph in the stored entity-then-journal
iteration order, first encounter first. -/
def specOrder (g : QGraph) : List String :=
  dedupFirst (g.flatMap (fun e => e.2.map Prod.fst))

/-- The number of distinct entities having an occurrence bucket under
journal `j` (entity keys of a dict are distinct). -/
def dCount (g : QGraph) (j : String) : Nat :=
  (g.filter (fun e => decide (j ∈ e.2.map Prod.fst))).length

/-- The (entity, journal) pairs of a loaded graph in the stored
entity-then-journal iteration order. -/
def entJournalPairs (g : QGraph) : List (String × String) :=
  g.flatMap (fun e => e.2.map (fun je => (e.1, je.1)))

/-- Folding the `journal_to_drugs_mentioned` accumulation over an
explicit pair list. -/
def jtdFold (l : List (String × String))
    (m : List (String × List String)) : List (String × List String) :=
  l.foldl (fun m2 dj => jtdAdd m2 dj.2 dj.1) m

/-- The entities paired with journal `j` in a pair list, in order. -/
def drugsFor (l : List (String × String)) (j : String) : List String :=
  (l.filter (fun dj => decide (dj.2 = j))).map Prod.fst

/-- Every journal map and bucket reachable by lookup is nonempty (an
invariant of graphs the builder returns). -/
def wfNE (g : Graph) : Prop :=
  ∀ d jm, alookup g d = some jm →
    jm ≠ [] ∧ ∀ j b, alookup jm j = some b → b ≠ []

/-- Every bucket reachable by lookup is duplicate-free (an invariant of
graphs the builder returns). -/
def wfND (g : Graph) : Prop :=
  ∀ d jm j b, alookup g d = some jm → alookup jm j = some b → b.Nodup

/-! ## General helper lemmas -/

theorem any_congr {α : Type} {f g : α → Bool} :
    ∀ (l : List α), (∀ a ∈ l, f a = g a) → l.any f = l.any g
  | [], _ => rfl
  | a :: l, h => by
    simp only [List.any_cons]
    rw [h a (List.mem_cons_self a l),
      any_congr l (fun x hx => h x (List.mem_cons_of_mem a hx))]

theorem except_bind_ok {ε α β : Type} {x : Except ε α} {f : α → Except ε β}
    {b : β} (h : x >>= f = .ok b) : ∃ a, x = .ok a ∧ f a = .ok b := by
  cases x with
  | ok a => exact ⟨a, rfl, h⟩
  | error e => exact absurd h (by simp [Bind.bind, Except.bind])

theorem mem_setAdd {α : Type} [DecidableEq α] {l : List α} {a x : α} :
    x ∈ setAdd l a ↔ x ∈ l ∨ x = a := by
  unfold setAdd
  by_cases h : a ∈ l
  · simp only [if_pos h]
    constructor
    · exact Or.inl
    · rintro (hx | rfl)
      · exact hx
      · exact h
  · simp [if_neg h]

/-! ## Word-boundary matching: regex semantics vs. spec wording (C1) -/

theorem wordAt_of_getElem {t : List Char} {i : Nat} {c : Char}
    (h : t[i]? = some c) : wordAt t i = isWordChar c := by
  simp [wordAt, h]

theorem wordAt_length (t : List Char) : wordAt t t.length = false := by
  simp [wordAt, List.getElem?_eq_none (Nat.le_refl _)]

theorem sub_getElem {e t : List Char} {i : Nat}
    (hsub : (t.drop i).take e.length = e) {k : Nat} (hk : k < e.length) :
    t[i + k]? = e[k]? := by
  conv_rhs => rw [← hsub]
  rw [List.getElem?_take_of_lt hk, List.getElem?_drop]

theorem sub_le_length {e t : List Char} {i : Nat} (he : 0 < e.length)
    (hsub : (t.drop i).take e.length = e) : i + e.length ≤ t.length := by
  have h1 := congrArg List.length hsub
  simp only [List.length_take, List.length_drop] at h1
  omega

theorem regexMatchAt_eq_specBoundedAt {e t : List Char}
    (hh : headIsWord e = true) (hl : lastIsWord e = true) (i : Nat) :
    regexMatchAt e t i = specBoundedAt e t i := by
  unfold regexMatchAt specBoundedAt
  by_cases hsub : (t.drop i).take e.length = e
  · cases e with
    | nil => simp [headIsWord] at hh
    | cons c rest =>
      obtain ⟨cl, hcl, hclw⟩ :
          ∃ cl, (c :: rest).getLast? = some cl ∧ isWordChar cl = true := by
        unfold lastIsWord at hl
        cases hgl : (c :: rest).getLast? with
        | none => rw [hgl] at hl; simp at hl
        | some cl => rw [hgl] at hl; exact ⟨cl, rfl, hl⟩
      have hh' : isWordChar c = true := by
        unfold headIsWord at hh
        simpa using hh
      have hlen : 0 < (c :: rest).length := by simp
      have hwi : wordAt t i = true := by
        have h0 : t[i + 0]? = (c :: rest)[0]? := sub_getElem hsub hlen
        simp only [Nat.add_zero] at h0
        rw [wordAt_of_getElem (by simpa using h0)]
        exact hh'
      have hle : i + (c :: rest).length ≤ t.length := sub_le_length hlen hsub
      have hwl : wordAt t (i + (c :: rest).length - 1) = true := by
        have hk : (c :: rest).length - 1 < (c :: rest).length := by simp
        have h0 : t[i + ((c :: rest).length - 1)]? =
            (c :: rest)[(c :: rest).length - 1]? := sub_getElem hsub hk
        have h1 : (c :: rest)[(c :: rest).length - 1]? = some cl := by
          rw [← List.getLast?_eq_getElem?]; exact hcl
        have h2 : i + ((c :: rest).length - 1) = i + (c :: rest).length - 1 := by
          omega
        rw [h2] at h0
        rw [wordAt_of_getElem (h0.trans h1)]
        exact hclw
      have hb1 : boundaryAt t i =
          (decide (i = 0) || !wordAt t (i - 1)) := by
        unfold boundaryAt
        rcases Nat.eq_zero_or_pos i with h0 | h0
        · subst h0; simp [hwi]
        · have hne : ¬ (i = 0) := by omega
          simp only [if_neg hne, hwi, decide_eq_true_eq]
          cases hw : wordAt t (i - 1) <;> simp [hne]
      have hb2 : boundaryAt t (i + (c :: rest).length) =
          (decide (i + (c :: rest).length = t.length) ||
            !wordAt t (i + (c :: rest).length)) := by
        unfold boundaryAt
        have hne : ¬ (i + (c :: rest).length = 0) := by
          simp only [List.length_cons]; omega
        rcases eq_or_ne (i + (c :: rest).length) t.length with heq | hne2
        · rw [heq, wordAt_length, ← heq, hwl]
          simp [if_neg hne, heq]
        · simp only [if_neg hne, hwl, hne2]
          cases hw : wordAt t (i + (c :: rest).length) <;> simp [hne2]
      rw [hb1, hb2]
  · simp [hsub]

theorem reSearchWord_eq_specSearch {e t : List Char}
    (hh : headIsWord e = true) (hl : lastIsWord e = true) :
    reSearchWord e t = specSearch e t := by
  unfold reSearchWord specSearch
  exact any_congr _ (fun i _ => regexMatchAt_eq_specBoundedAt hh hl i)

/-- C1 (counterexample): the claimed iff fails for an entity whose edge
characters are not word characters.  Entity `"+"` occurs in title `"+"`
bounded by string boundaries on both sides, so the spec wording demands a
match, yet the `\b`-bounded regex does not match, and the builder records
nothing for it. -/
theorem claim_C1_counterexample :
    specSearch "+".data "+".data = true ∧
    reSearchWord "+".data "+".data = false ∧
    build_drug_mention_graph ["+"]
      [[("title", PyVal.str "+"), ("journal", PyVal.str "j"),
        ("date", PyVal.str "d"), ("original_title", PyVal.str "+"),
        ("source_type", PyVal.str "s"), ("id", PyVal.str "1")]] =
      Except.ok [] :=
  ⟨by decide, by decide, by rfl⟩

/-- C1 (amended): for every entity that begins and ends with a word
character, the builder's regex matches a title exactly when the entity
appears bounded by non-word characters or string boundaries on both
sides; in particular `"ace"` does not match inside `"face"`, and
`"beta blocker"` matches `"the beta blocker trial"` but not
`"betablocker trial"`.  Regex metacharacters in the entity are literal:
`"a.b"` matches `"a.b"` and not `"axb"`. -/
theorem claim_C1_whole_word :
    (∀ e t : String, headIsWord e.data = true → lastIsWord e.data = true →
      reSearchWord e.data t.data = specSearch e.data t.data) ∧
    reSearchWord "ace".data "face".data = false ∧
    reSearchWord "beta blocker".data "the beta blocker trial".data = true ∧
    reSearchWord "beta blocker".data "betablocker trial".data = false ∧
    reSearchWord "a.b".data "a.b".data = true ∧
    reSearchWord "a.b".data "axb".data = false :=
  ⟨fun _ _ hh hl => reSearchWord_eq_specSearch hh hl,
    by decide, by decide, by decide, by decide, by decide⟩

/-- C1 (witness): the amended equivalence applied to the concrete entity
`"ace"` and title `"an ace study"`. -/
theorem claim_C1_witness :
    headIsWord "ace".data = true ∧ lastIsWord "ace".data = true ∧
    reSearchWord "ace".data "an ace study".data =
      specSearch "ace".data "an ace study".data :=
  ⟨by decide, by decide,
    claim_C1_whole_word.1 "ace" "an ace study" (by decide) (by decide)⟩

/-! ## Builder: insertion lookup lemmas -/

theorem except_ok_bind {ε α β : Type} (a : α) (f : α → Except ε β) :
    (Except.ok a >>= f) = f a := rfl

theorem except_error_bind {ε α β : Type} (e : ε) (f : α → Except ε β) :
    ((Except.error e : Except ε α) >>= f) = .error e := rfl

theorem bucketInsert_eq_setAdd (b : List Occ) (o : Occ) :
    bucketInsert b o = setAdd b o := rfl

theorem mem_bucketInsert {b : List Occ} {o x : Occ} :
    x ∈ bucketInsert b o ↔ x ∈ b ∨ x = o := by
  rw [bucketInsert_eq_setAdd]; exact mem_setAdd

theorem bucketInsert_ne_nil (b : List Occ) (o : Occ) : bucketInsert b o ≠ [] := by
  unfold bucketInsert
  by_cases h : o ∈ b
  · simp only [if_pos h]
    intro hb
    rw [hb] at h
    exact absurd h (List.not_mem_nil o)
  · simp [if_neg h]

theorem bucketInsert_nodup {b : List Occ} (h : b.Nodup) (o : Occ) :
    (bucketInsert b o).Nodup := by
  unfold bucketInsert
  by_cases hm : o ∈ b
  · simpa [if_pos hm] using h
  · simp only [if_neg hm]
    exact List.Nodup.append h (List.nodup_singleton o)
      (fun x hx hxo => hm ((List.mem_singleton.mp hxo) ▸ hx))

theorem bucketInsert_of_mem {b : List Occ} {o : Occ} (h : o ∈ b) :
    bucketInsert b o = b := if_pos h

theorem jmapInsert_ne_nil (jm : JMap) (j : PyVal) (o : Occ) :
    jmapInsert jm j o ≠ [] := by
  cases jm with
  | nil => simp [jmapInsert]
  | cons e rest =>
    obtain ⟨k, b⟩ := e
    unfold jmapInsert
    by_cases h : k = j <;> simp [h]

theorem alookup_jmapInsert_self (jm : JMap) (j : PyVal) (o : Occ) :
    alookup (jmapInsert jm j o) j =
      some (bucketInsert ((alookup jm j).getD []) o) := by
  induction jm with
  | nil => simp [jmapInsert, alookup, bucketInsert]
  | cons e rest ih =>
    obtain ⟨k, b⟩ := e
    by_cases h : k = j
    · subst h
      simp [jmapInsert, alookup]
    · simp [jmapInsert, alookup, h, ih]

theorem alookup_jmapInsert_ne (jm : JMap) (j : PyVal) (o : Occ) {j' : PyVal}
    (h : j' ≠ j) : alookup (jmapInsert jm j o) j' = alookup jm j' := by
  induction jm with
  | nil => simp [jmapInsert, alookup, Ne.symm h]
  | cons e rest ih =>
    obtain ⟨k, b⟩ := e
    by_cases hk : k = j
    · subst hk
      simp [jmapInsert, alookup, Ne.symm h]
    · simp [jmapInsert, alookup, hk, ih]

theorem alookup_graphInsert_self (g : Graph) (d : String) (j : PyVal) (o : Occ) :
    alookup (graphInsert g d j o) d =
      some (jmapInsert ((alookup g d).getD []) j o) := by
  induction g with
  | nil => simp [graphInsert, alookup, jmapInsert]
  | cons e rest ih =>
    obtain ⟨k, jm⟩ := e
    by_cases h : k = d
    · subst h
      simp [graphInsert, alookup]
    · simp [graphInsert, alookup, h, ih]

theorem alookup_graphInsert_ne (g : Graph) (d : String) (j : PyVal) (o : Occ)
    {d' : String} (h : d' ≠ d) :
    alookup (graphInsert g d j o) d' = alookup g d' := by
  induction g with
  | nil => simp [graphInsert, alookup, Ne.symm h]
  | cons e rest ih =>
    obtain ⟨k, jm⟩ := e
    by_cases hk : k = d
    · subst hk
      simp [graphInsert, alookup, Ne.symm h]
    · simp [graphInsert, alookup, hk, ih]

/-! ## Builder: occurrence characterization -/

theorem occIn_nil (d : String) (j : PyVal) (o : Occ) : ¬ occIn [] d j o := by
  rintro ⟨jm, b, hjm, -, -⟩
  simp [alookup] at hjm

theorem occIn_of_alookup_none {g : Graph} {d : String} (h : alookup g d = none)
    (j : PyVal) (o : Occ) : ¬ occIn g d j o := by
  rintro ⟨jm, b, hjm, -, -⟩
  rw [h] at hjm
  exact Option.noConfusion hjm

theorem occIn_graphInsert {g : Graph} {d : String} {j : PyVal} {o : Occ}
    (d' : String) (j' : PyVal) (o' : Occ) :
    occIn (graphInsert g d j o) d' j' o' ↔
      occIn g d' j' o' ∨ (d' = d ∧ j' = j ∧ o' = o) := by
  by_cases hd : d' = d
  · subst hd
    rw [show (occIn (graphInsert g d' j o) d' j' o' ↔
        ∃ b, alookup (jmapInsert ((alookup g d').getD []) j o) j' = some b ∧
          o' ∈ b) from ?side]
    case side =>
      constructor
      · rintro ⟨jm, b, hjm, hb, ho⟩
        rw [alookup_graphInsert_self] at hjm
        exact ⟨b, (Option.some.injEq _ _ ▸ hjm : _) ▸ hb, ho⟩
      · rintro ⟨b, hb, ho⟩
        exact ⟨_, b, alookup_graphInsert_self g d' j o, hb, ho⟩
    by_cases hj : j' = j
    · subst hj
      rw [alookup_jmapInsert_self]
      cases hg : alookup g d' with
      | none =>
        simp only [hg, Option.getD_none, alookup]
        constructor
        · rintro ⟨b, hb, ho⟩
          cases hb
          rw [mem_bucketInsert] at ho
          rcases ho with ho | rfl
          · exact absurd ho (List.not_mem_nil o')
          · exact Or.inr (by simp)
        · rintro (hocc | ⟨-, -, rfl⟩)
          · exact absurd hocc (occIn_of_alookup_none hg j' o')
          · exact ⟨_, rfl, by rw [mem_bucketInsert]; exact Or.inr rfl⟩
      | some jm =>
        simp only [hg, Option.getD_some]
        cases hjmj : alookup jm j' with
        | none =>
          simp only [hjmj, Option.getD_none]
          constructor
          · rintro ⟨b, hb, ho⟩
            cases hb
            rw [mem_bucketInsert] at ho
            rcases ho with ho | rfl
            · exact absurd ho (List.not_mem_nil o')
            · exact Or.inr (by simp)
          · rintro (⟨jm2, b2, hjm2, hb2, ho2⟩ | ⟨-, -, rfl⟩)
            · rw [hg] at hjm2
              cases hjm2
              rw [hjmj] at hb2
              exact Option.noConfusion hb2
            · exact ⟨_, rfl, by rw [mem_bucketInsert]; exact Or.inr rfl⟩
        | some b0 =>
          simp only [hjmj, Option.getD_some]
          constructor
          · rintro ⟨b, hb, ho⟩
            cases hb
            rw [mem_bucketInsert] at ho
            rcases ho with ho | rfl
            · exact Or.inl ⟨jm, b0, hg, hjmj, ho⟩
            · exact Or.inr (by simp)
          · rintro (⟨jm2, b2, hjm2, hb2, ho2⟩ | ⟨-, -, rfl⟩)
            · rw [hg] at hjm2
              cases hjm2
              rw [hjmj] at hb2
              cases hb2
              exact ⟨_, rfl, by rw [mem_bucketInsert]; exact Or.inl ho2⟩
            · exact ⟨_, rfl, by rw [mem_bucketInsert]; exact Or.inr rfl⟩
    · rw [alookup_jmapInsert_ne _ _ _ hj]
      cases hg : alookup g d' with
      | none =>
        simp only [hg, Option.getD_none, alookup]
        constructor
        · rintro ⟨b, hb, -⟩
          exact Option.noConfusion hb
        · rintro (hocc | ⟨-, hj', -⟩)
          · exact absurd hocc (occIn_of_alookup_none hg j' o')
          · exact absurd hj' hj
      | some jm =>
        simp only [hg, Option.getD_some]
        constructor
        · rintro ⟨b, hb, ho⟩
          exact Or.inl ⟨jm, b, hg, hb, ho⟩
        · rintro (⟨jm2, b2, hjm2, hb2, ho2⟩ | ⟨-, hj', -⟩)
          · rw [hg] at hjm2
            cases hjm2
            exact ⟨b2, hb2, ho2⟩
          · exact absurd hj' hj
  · unfold occIn
    rw [alookup_graphInsert_ne _ _ _ _ hd]
    constructor
    · rintro ⟨jm, b, hjm, hb, ho⟩
      exact Or.inl ⟨jm, b, hjm, hb, ho⟩
    · rintro (⟨jm, b, hjm, hb, ho⟩ | ⟨hd', -, -⟩)
      · exact ⟨jm, b, hjm, hb, ho⟩
      · exact absurd hd' hd

theorem processPub_of_not_matches {d : String} {g : Graph} {p : Record}
    (h : matchesRec d p = false) : processPub d g p = .ok g := by
  simp [processPub, h, pure, Except.pure]

theorem processPub_ok_cases {d : String} {g g' : Graph} {p : Record}
    (h : processPub d g p = .ok g') :
    (matchesRec d p = false ∧ g' = g) ∨
      (matchesRec d p = true ∧
        ∃ j o, recOcc p = .ok (j, o) ∧ g' = graphInsert g d j o) := by
  by_cases hm : matchesRec d p
  · right
    refine ⟨hm, ?_⟩
    unfold processPub at h
    rw [if_pos hm] at h
    obtain ⟨a, ha, hf⟩ := except_bind_ok h
    obtain ⟨j, o⟩ := a
    refine ⟨j, o, ha, ?_⟩
    simpa [pure, Except.pure] using hf.symm
  · left
    have := processPub_of_not_matches (g := g) (p := p) (eq_false_of_ne_true hm)
    rw [this] at h
    exact ⟨eq_false_of_ne_true hm, (Except.ok.injEq _ _ ▸ h : _).symm⟩

theorem occIn_processPub {d : String} {g g' : Graph} {p : Record}
    (h : processPub d g p = .ok g') (d' : String) (j : PyVal) (o : Occ) :
    occIn g' d' j o ↔
      occIn g d' j o ∨
        (d' = d ∧ matchesRec d p = true ∧ recOcc p = .ok (j, o)) := by
  rcases processPub_ok_cases h with ⟨hm, rfl⟩ | ⟨hm, j0, o0, hr, rfl⟩
  · simp [hm]
  · rw [occIn_graphInsert]
    constructor
    · rintro (hocc | ⟨rfl, rfl, rfl⟩)
      · exact Or.inl hocc
      · exact Or.inr ⟨rfl, hm, hr⟩
    · rintro (hocc | ⟨rfl, -, hr'⟩)
      · exact Or.inl hocc
      · rw [hr] at hr'
        obtain ⟨rfl, rfl⟩ := Prod.mk.injEq _ _ _ _ ▸ (Except.ok.injEq _ _ ▸ hr' : _)
        exact Or.inr ⟨rfl, rfl, rfl⟩

theorem occIn_foldPubs {d : String} :
    ∀ (pubs : List Record) (g g' : Graph),
      pubs.foldlM (processPub d) g = .ok g' →
      ∀ (d' : String) (j : PyVal) (o : Occ),
        occIn g' d' j o ↔
          occIn g d' j o ∨
            (d' = d ∧ ∃ p ∈ pubs, matchesRec d p = true ∧ recOcc p = .ok (j, o))
  | [], g, g', h, d', j, o => by
    simp only [List.foldlM_nil, pure, Except.pure] at h
    cases h
    simp
  | p :: rest, g, g', h, d', j, o => by
    simp only [List.foldlM_cons] at h
    obtain ⟨g1, h1, h2⟩ := except_bind_ok h
    rw [occIn_foldPubs rest g1 g' h2 d' j o, occIn_processPub h1 d' j o]
    simp only [List.exists_mem_cons_iff]
    tauto

theorem occIn_foldDrugs (pubs : List Record) :
    ∀ (drugs : List String) (g0 g : Graph),
      drugs.foldlM
        (fun g d => if d = "" then pure g else pubs.foldlM (processPub d) g)
        g0 = .ok g →
      ∀ (d : String) (j : PyVal) (o : Occ),
        occIn g d j o ↔
          occIn g0 d j o ∨
            (d ∈ drugs ∧ d ≠ "" ∧
              ∃ p ∈ pubs, matchesRec d p = true ∧ recOcc p = .ok (j, o))
  | [], g0, g, h, d, j, o => by
    simp only [List.foldlM_nil, pure, Except.pure] at h
    cases h
    simp
  | d0 :: rest, g0, g, h, d, j, o => by
    simp only [List.foldlM_cons] at h
    obtain ⟨g1, h1, h2⟩ := except_bind_ok h
    rw [occIn_foldDrugs pubs rest g1 g h2 d j o]
    by_cases hd0 : d0 = ""
    · rw [if_pos hd0] at h1
      have hg1 : g1 = g0 := by
        simpa [pure, Except.pure] using h1.symm
      subst hg1
      subst hd0
      simp only [List.mem_cons]
      constructor
      · rintro (hocc | ⟨hmem, hne, hp⟩)
        · exact Or.inl hocc
        · exact Or.inr ⟨Or.inr hmem, hne, hp⟩
      · rintro (hocc | ⟨hmem, hne, hp⟩)
        · exact Or.inl hocc
        · rcases hmem with rfl | hmem
          · exact absurd rfl hne
          · exact Or.inr ⟨hmem, hne, hp⟩
    · rw [if_neg hd0] at h1
      rw [occIn_foldPubs pubs g0 g1 h1 d j o]
      simp only [List.mem_cons]
      constructor
      · rintro ((hocc | ⟨rfl, hp⟩) | ⟨hmem, hne, hp⟩)
        · exact Or.inl hocc
        · exact Or.inr ⟨Or.inl rfl, hd0, hp⟩
        · exact Or.inr ⟨Or.inr hmem, hne, hp⟩
      · rintro (hocc | ⟨hmem, hne, hp⟩)
        · exact Or.inl (Or.inl hocc)
        · rcases hmem with rfl | hmem
          · exact Or.inl (Or.inr ⟨rfl, hp⟩)
          · exact Or.inr ⟨hmem, hne, hp⟩

theorem build_occ_char {drugs : List String} {pubs : List Record} {g : Graph}
    (h : build_drug_mention_graph drugs pubs = .ok g)
    (d : String) (j : PyVal) (o : Occ) :
    occIn g d j o ↔
      (d ∈ drugs ∧ d ≠ "" ∧
        ∃ p ∈ pubs, matchesRec d p = true ∧ recOcc p = .ok (j, o)) := by
  unfold build_drug_mention_graph at h
  rw [occIn_foldDrugs pubs drugs [] g h d j o]
  simp [occIn_nil d j o]

/-! ## Builder: well-formedness invariants -/

theorem wfNE_nil : wfNE [] := by
  intro d jm h
  simp [alookup] at h

theorem wfND_nil : wfND [] := by
  intro d jm j b h
  simp [alookup] at h

theorem wfNE_graphInsert {g : Graph} (h : wfNE g) (d : String) (j : PyVal)
    (o : Occ) : wfNE (graphInsert g d j o) := by
  intro d' jm' hlk
  by_cases hd : d' = d
  · subst hd
    rw [alookup_graphInsert_self] at hlk
    cases hlk
    refine ⟨jmapInsert_ne_nil _ _ _, ?_⟩
    intro j' b hb
    by_cases hj : j' = j
    · subst hj
      rw [alookup_jmapInsert_self] at hb
      cases hb
      exact bucketInsert_ne_nil _ _
    · rw [alookup_jmapInsert_ne _ _ _ hj] at hb
      cases hg : alookup g d' with
      | none =>
        rw [hg] at hb
        simp [alookup] at hb
      | some jm =>
        rw [hg] at hb
        exact (h d' jm hg).2 j' b hb
  · rw [alookup_graphInsert_ne _ _ _ _ hd] at hlk
    exact h d' jm' hlk

theorem wfND_graphInsert {g : Graph} (h : wfND g) (d : String) (j : PyVal)
    (o : Occ) : wfND (graphInsert g d j o) := by
  intro d' jm' j' b hlk hb
  by_cases hd : d' = d
  · subst hd
    rw [alookup_graphInsert_self] at hlk
    cases hlk
    by_cases hj : j' = j
    · subst hj
      rw [alookup_jmapInsert_self] at hb
      cases hb
      cases hg : alookup g d' with
      | none =>
        simp only [hg, Option.getD_none, alookup]
        cases hjj : alookup ([] : JMap) j' with
        | none => exact bucketInsert_nodup (by simp [alookup] at hjj ⊢) o
        | some b2 => simp [alookup] at hjj
      | some jm =>
        simp only [hg, Option.getD_some]
        cases hjj : alookup jm j' with
        | none => simp only [hjj, Option.getD_none]; exact bucketInsert_nodup List.nodup_nil o
        | some b2 =>
          simp only [hjj, Option.getD_some]
          exact bucketInsert_nodup (h d' jm j' b2 hg hjj) o
    · rw [alookup_jmapInsert_ne _ _ _ hj] at hb
      cases hg : alookup g d' with
      | none =>
        rw [hg] at hb
        simp [alookup] at hb
      | some jm =>
        rw [hg] at hb
        exact h d' jm j' b hg hb
  · rw [alookup_graphInsert_ne _ _ _ _ hd] at hlk
    exact h d' jm' j' b hlk hb

theorem wf_processPub {d : String} {g g' : Graph} {p : Record}
    (h : processPub d g p = .ok g') (hne : wfNE g) (hnd : wfND g) :
    wfNE g' ∧ wfND g' := by
  rcases processPub_ok_cases h with ⟨-, rfl⟩ | ⟨-, j, o, -, rfl⟩
  · exact ⟨hne, hnd⟩
  · exact ⟨wfNE_graphInsert hne d j o, wfND_graphInsert hnd d j o⟩

theorem wf_foldPubs {d : String} :
    ∀ (pubs : List Record) (g g' : Graph),
      pubs.foldlM (processPub d) g = .ok g' → wfNE g → wfND g →
      wfNE g' ∧ wfND g'
  | [], g, g', h, hne, hnd => by
    simp only [List.foldlM_nil, pure, Except.pure] at h
    cases h
    exact ⟨hne, hnd⟩
  | p :: rest, g, g', h, hne, hnd => by
    simp only [List.foldlM_cons] at h
    obtain ⟨g1, h1, h2⟩ := except_bind_ok h
    obtain ⟨hne1, hnd1⟩ := wf_processPub h1 hne hnd
    exact wf_foldPubs rest g1 g' h2 hne1 hnd1

theorem wf_foldDrugs (pubs : List Record) :
    ∀ (drugs : List String) (g0 g : Graph),
      drugs.foldlM
        (fun g d => if d = "" then pure g else pubs.foldlM (processPub d) g)
        g0 = .ok g →
      wfNE g0 → wfND g0 → wfNE g ∧ wfND g
  | [], g0, g, h, hne, hnd => by
    simp only [List.foldlM_nil, pure, Except.pure] at h
    cases h
    exact ⟨hne, hnd⟩
  | d0 :: rest, g0, g, h, hne, hnd => by
    simp only [List.foldlM_cons] at h
    obtain ⟨g1, h1, h2⟩ := except_bind_ok h
    by_cases hd0 : d0 = ""
    · rw [if_pos hd0] at h1
      have hg1 : g1 = g0 := by simpa [pure, Except.pure] using h1.symm
      exact wf_foldDrugs pubs rest g0 g (hg1 ▸ h2) hne hnd
    · rw [if_neg hd0] at h1
      obtain ⟨hne1, hnd1⟩ := wf_foldPubs pubs g0 g1 h1 hne hnd
      exact wf_foldDrugs pubs rest g1 g h2 hne1 hnd1

theorem wf_build {drugs : List String} {pubs : List Record} {g : Graph}
    (h : build_drug_mention_graph drugs pubs = .ok g) : wfNE g ∧ wfND g :=
  wf_foldDrugs pubs drugs [] g h wfNE_nil wfND_nil

/-! ## Builder: key existence characterizations -/

theorem ekey_iff_ex_occ {g : Graph} (hwf : wfNE g) (d : String) :
    (alookup g d).isSome ↔ ∃ j o, occIn g d j o := by
  constructor
  · intro h
    obtain ⟨jm, hjm⟩ := Option.isSome_iff_exists.mp h
    obtain ⟨hjmne, hb⟩ := hwf d jm hjm
    cases jm with
    | nil => exact absurd rfl hjmne
    | cons e rest =>
      obtain ⟨j0, b0⟩ := e
      have hb0 : alookup ((j0, b0) :: rest) j0 = some b0 := by simp [alookup]
      have hbnn := hb j0 b0 hb0
      cases b0 with
      | nil => exact absurd rfl hbnn
      | cons o0 os =>
        exact ⟨j0, o0, (j0, o0 :: os) :: rest, o0 :: os, hjm, hb0,
          List.mem_cons_self o0 os⟩
  · rintro ⟨j, o, jm, b, hjm, -, -⟩
    rw [hjm]
    rfl

theorem jkey_iff_ex_occ {g : Graph} (hwf : wfNE g) (d : String) (j : PyVal) :
    jkeyIn g d j ↔ ∃ o, occIn g d j o := by
  constructor
  · rintro ⟨jm, hjm, hsome⟩
    obtain ⟨b, hb⟩ := Option.isSome_iff_exists.mp hsome
    have hbnn := (hwf d jm hjm).2 j b hb
    cases b with
    | nil => exact absurd rfl hbnn
    | cons o0 os => exact ⟨o0, jm, o0 :: os, hjm, hb, List.mem_cons_self o0 os⟩
  · rintro ⟨o, jm, b, hjm, hb, -⟩
    exact ⟨jm, hjm, by rw [hb]; rfl⟩

theorem foldlM_ok_steps {α β : Type} {f : β → α → Except String β} :
    ∀ (l : List α) (b0 b1 : β), l.foldlM f b0 = .ok b1 →
      ∀ a ∈ l, ∃ s s', f s a = .ok s'
  | [], _, _, _, a, ha => absurd ha (List.not_mem_nil a)
  | x :: rest, b0, b1, h, a, ha => by
    simp only [List.foldlM_cons] at h
    obtain ⟨s1, h1, h2⟩ := except_bind_ok h
    rcases List.mem_cons.mp ha with rfl | ha
    · exact ⟨b0, s1, h1⟩
    · exact foldlM_ok_steps rest s1 b1 h2 a ha

theorem build_ok_recOcc {drugs : List String} {pubs : List Record} {g : Graph}
    (h : build_drug_mention_graph drugs pubs = .ok g) :
    ∀ d ∈ drugs, d ≠ "" → ∀ p ∈ pubs, matchesRec d p = true →
      ∃ r, recOcc p = .ok r := by
  intro d hd hdne p hp hm
  unfold build_drug_mention_graph at h
  obtain ⟨s, s', hstep⟩ := foldlM_ok_steps drugs [] g h d hd
  rw [if_neg hdne] at hstep
  obtain ⟨t, t', hstep2⟩ := foldlM_ok_steps pubs s s' hstep p hp
  rcases processPub_ok_cases hstep2 with ⟨hmf, -⟩ | ⟨-, j, o, hr, -⟩
  · rw [hm] at hmf
    exact Bool.noConfusion hmf
  · exact ⟨(j, o), hr⟩

/-! ## Builder: totality, skipping, and idempotence lemmas -/

theorem build_nil_drugs (pubs : List Record) :
    build_drug_mention_graph [] pubs = .ok [] := rfl

theorem except_pure_bind {ε α β : Type} (a : α) (f : α → Except ε β) :
    ((pure a : Except ε α) >>= f) = f a := rfl

theorem foldlM_const_ok {α β : Type} {f : β → α → Except String β}
    (h : ∀ b a, f b a = .ok b) : ∀ (l : List α) (b : β), l.foldlM f b = .ok b
  | [], _ => rfl
  | a :: rest, b => by
    simp only [List.foldlM_cons, h b a, except_ok_bind]
    exact foldlM_const_ok h rest b

theorem build_nil_pubs (drugs : List String) :
    build_drug_mention_graph drugs [] = .ok [] := by
  unfold build_drug_mention_graph
  refine foldlM_const_ok (fun g d => ?_) drugs []
  by_cases hd : d = "" <;> simp [hd, pure, Except.pure]

theorem recOcc_ok_of_hasCore {p : Record} (h : hasCoreFields p) :
    ∃ r, recOcc p = .ok r := by
  obtain ⟨hj, hdt, hot, hst, hid⟩ := h
  obtain ⟨j, hj⟩ := Option.isSome_iff_exists.mp hj
  obtain ⟨dt, hdt⟩ := Option.isSome_iff_exists.mp hdt
  obtain ⟨ot, hot⟩ := Option.isSome_iff_exists.mp hot
  obtain ⟨st, hst⟩ := Option.isSome_iff_exists.mp hst
  obtain ⟨sid, hid⟩ := Option.isSome_iff_exists.mp hid
  refine ⟨(j, ⟨dt, ot, st, sid⟩), ?_⟩
  simp [recOcc, getKey, hj, hdt, hot, hst, hid, except_ok_bind]

theorem processPub_ok_of_hasCore {d : String} {g : Graph} {p : Record}
    (h : hasCoreFields p) : ∃ g', processPub d g p = .ok g' := by
  by_cases hm : matchesRec d p
  · obtain ⟨⟨j, o⟩, hr⟩ := recOcc_ok_of_hasCore h
    exact ⟨graphInsert g d j o, by simp [processPub, hm, hr, except_ok_bind]⟩
  · exact ⟨g, processPub_of_not_matches (eq_false_of_ne_true hm)⟩

theorem foldPubs_ok_of_hasCore {d : String} :
    ∀ (pubs : List Record), (∀ p ∈ pubs, hasCoreFields p) →
      ∀ (g : Graph), ∃ g', pubs.foldlM (processPub d) g = .ok g'
  | [], _, g => ⟨g, rfl⟩
  | p :: rest, h, g => by
    obtain ⟨g1, h1⟩ := processPub_ok_of_hasCore (d := d) (g := g)
      (h p (List.mem_cons_self p rest))
    obtain ⟨g', h2⟩ := foldPubs_ok_of_hasCore (d := d) rest
      (fun q hq => h q (List.mem_cons_of_mem p hq)) g1
    exact ⟨g', by simp only [List.foldlM_cons, h1, except_ok_bind, h2]⟩

theorem build_ok_of_hasCore (drugs : List String) (pubs : List Record)
    (h : ∀ p ∈ pubs, hasCoreFields p) :
    ∃ g, build_drug_mention_graph drugs pubs = .ok g := by
  unfold build_drug_mention_graph
  suffices hgen : ∀ (ds : List String) (g0 : Graph),
      ∃ g, ds.foldlM
        (fun g d => if d = "" then pure g else pubs.foldlM (processPub d) g)
        g0 = .ok g by
    exact hgen drugs []
  intro ds
  induction ds with
  | nil => exact fun g0 => ⟨g0, rfl⟩
  | cons d0 rest ih =>
    intro g0
    by_cases hd0 : d0 = ""
    · obtain ⟨g, hg⟩ := ih g0
      refine ⟨g, ?_⟩
      simp only [List.foldlM_cons, if_pos hd0, except_pure_bind]
      exact hg
    · obtain ⟨g1, h1⟩ := foldPubs_ok_of_hasCore (d := d0) pubs h g0
      obtain ⟨g, hg⟩ := ih g1
      refine ⟨g, ?_⟩
      simp only [List.foldlM_cons, if_neg hd0, h1, except_ok_bind]
      exact hg

theorem matchesRec_of_titleVal_none {d : String} {p : Record}
    (h : titleVal p = none) : matchesRec d p = false := by
  simp [matchesRec, h]

theorem foldlM_congr_f {α β : Type} {f f' : β → α → Except String β}
    (h : ∀ b a, f b a = f' b a) :
    ∀ (l : List α) (b : β), l.foldlM f b = l.foldlM f' b
  | [], _ => rfl
  | a :: rest, b => by
    simp only [List.foldlM_cons, h b a]
    cases f' b a with
    | error e => rfl
    | ok b1 => simp only [except_ok_bind, foldlM_congr_f h rest b1]

theorem build_skip_bad_title (drugs : List String) (pubs : List Record)
    {p : Record} (h : titleVal p = none) :
    build_drug_mention_graph drugs (p :: pubs) =
      build_drug_mention_graph drugs pubs := by
  unfold build_drug_mention_graph
  refine foldlM_congr_f (fun g d => ?_) drugs []
  by_cases hd : d = ""
  · simp [hd]
  · simp only [if_neg hd, List.foldlM_cons,
      processPub_of_not_matches (matchesRec_of_titleVal_none h),
      except_ok_bind]

theorem build_skip_empty_drug (drugs : List String) (pubs : List Record) :
    build_drug_mention_graph ("" :: drugs) pubs =
      build_drug_mention_graph drugs pubs := by
  unfold build_drug_mention_graph
  simp [List.foldlM_cons, pure, Except.pure, except_ok_bind]

theorem jmapInsert_of_mem {jm : JMap} {j : PyVal} {b : List Occ} {o : Occ}
    (hb : alookup jm j = some b) (ho : o ∈ b) : jmapInsert jm j o = jm := by
  induction jm with
  | nil => simp [alookup] at hb
  | cons e rest ih =>
    obtain ⟨k, b'⟩ := e
    by_cases hk : k = j
    · subst hk
      simp only [alookup, if_pos rfl] at hb
      cases hb
      simp [jmapInsert, bucketInsert_of_mem ho]
    · simp only [alookup, if_neg hk] at hb
      simp [jmapInsert, hk, ih hb]

theorem graphInsert_of_occIn {g : Graph} {d : String} {j : PyVal} {o : Occ}
    (h : occIn g d j o) : graphInsert g d j o = g := by
  obtain ⟨jm, b, hjm, hb, ho⟩ := h
  induction g with
  | nil => simp [alookup] at hjm
  | cons e rest ih =>
    obtain ⟨k, jm'⟩ := e
    by_cases hk : k = d
    · subst hk
      simp only [alookup, if_pos rfl] at hjm
      cases hjm
      simp [graphInsert, jmapInsert_of_mem hb ho]
    · simp only [alookup, if_neg hk] at hjm
      simp [graphInsert, hk, ih hjm]

theorem processPub_noop {d : String} {g : Graph} {p : Record}
    (hocc : ∀ j o, matchesRec d p = true → recOcc p = .ok (j, o) →
      occIn g d j o)
    (hrec : matchesRec d p = true → ∃ r, recOcc p = .ok r) :
    processPub d g p = .ok g := by
  by_cases hm : matchesRec d p
  · obtain ⟨⟨j, o⟩, hr⟩ := hrec hm
    have hins := graphInsert_of_occIn (hocc j o hm hr)
    simp [processPub, hm, hr, except_ok_bind, hins, pure, Except.pure]
  · exact processPub_of_not_matches (eq_false_of_ne_true hm)

theorem foldPubs_append_self {d : String} {pubs : List Record} {p : Record}
    (hp : p ∈ pubs) (g : Graph) :
    (pubs ++ [p]).foldlM (processPub d) g = pubs.foldlM (processPub d) g := by
  rw [List.foldlM_append]
  cases hres : pubs.foldlM (processPub d) g with
  | error e => rfl
  | ok g1 =>
    simp only [except_ok_bind, List.foldlM_cons, List.foldlM_nil]
    have hstep : processPub d g1 p = .ok g1 := by
      refine processPub_noop (fun j o hm hr => ?_) (fun hm => ?_)
      · rw [occIn_foldPubs pubs g g1 hres d j o]
        exact Or.inr ⟨rfl, p, hp, hm, hr⟩
      · obtain ⟨s, s', hstep2⟩ := foldlM_ok_steps pubs g g1 hres p hp
        rcases processPub_ok_cases hstep2 with ⟨hmf, -⟩ | ⟨-, j, o, hr, -⟩
        · rw [hm] at hmf
          exact Bool.noConfusion hmf
        · exact ⟨(j, o), hr⟩
    simp [hstep, except_ok_bind, pure, Except.pure]

theorem build_append_self {drugs : List String} {pubs : List Record}
    {p : Record} (hp : p ∈ pubs) :
    build_drug_mention_graph drugs (pubs ++ [p]) =
      build_drug_mention_graph drugs pubs := by
  unfold build_drug_mention_graph
  refine foldlM_congr_f (fun g d => ?_) drugs []
  by_cases hd : d = ""
  · simp [hd]
  · simp only [if_neg hd, foldPubs_append_self hp g]

theorem recOcc_journal {p : Record} {j : PyVal} {o : Occ}
    (h : recOcc p = .ok (j, o)) : alookup p "journal" = some j := by
  unfold recOcc at h
  cases hj : alookup p "journal" with
  | none => rw [show getKey p "journal" = .error "journal" from by
      simp [getKey, hj]] at h; exact Except.noConfusion (except_error_bind _ _ ▸ h)
  | some v =>
    rw [show getKey p "journal" = .ok v from by simp [getKey, hj]] at h
    rw [except_ok_bind] at h
    cases hdt : getKey p "date" with
    | error e => rw [hdt] at h; exact Except.noConfusion (except_error_bind _ _ ▸ h)
    | ok dt =>
      rw [hdt, except_ok_bind] at h
      cases hot : getKey p "original_title" with
      | error e => rw [hot] at h; exact Except.noConfusion (except_error_bind _ _ ▸ h)
      | ok ot =>
        rw [hot, except_ok_bind] at h
        cases hst : getKey p "source_type" with
        | error e => rw [hst] at h; exact Except.noConfusion (except_error_bind _ _ ▸ h)
        | ok st =>
          rw [hst, except_ok_bind] at h
          cases hid : getKey p "id" with
          | error e => rw [hid] at h; exact Except.noConfusion (except_error_bind _ _ ▸ h)
          | ok sid =>
            rw [hid, except_ok_bind] at h
            have h2 : ((v, ⟨dt, ot, st, sid⟩) : PyVal × Occ) = (j, o) := by
              simpa [pure, Except.pure] using h
            have hv : v = j := congrArg Prod.fst h2
            rw [← hv]

/-- C2 (counterexample): a record whose title matches an entity but which
lacks the `journal` field makes the builder raise `KeyError` instead of
being skipped. -/
theorem claim_C2_counterexample :
    build_drug_mention_graph ["a"] [[("title", PyVal.str "a")]] =
      Except.error "journal" := by rfl

/-- C2 (amended): the builder cannot fail when every record carries the
`journal`, `date`, `original_title`, `source_type` and `id` fields;
entities that are empty strings are skipped silently, and records whose
title is missing, empty, or not a string are skipped silently.  (A record
whose title matches some entity but which lacks one of the five read
fields raises `KeyError` instead of being skipped.) -/
theorem claim_C2_no_failure :
    (∀ (drugs : List String) (pubs : List Record),
      (∀ p ∈ pubs, hasCoreFields p) →
      ∃ g, build_drug_mention_graph drugs pubs = .ok g) ∧
    (∀ (drugs : List String) (pubs : List Record) (p : Record),
      titleVal p = none →
      build_drug_mention_graph drugs (p :: pubs) =
        build_drug_mention_graph drugs pubs) ∧
    (∀ (drugs : List String) (pubs : List Record),
      build_drug_mention_graph ("" :: drugs) pubs =
        build_drug_mention_graph drugs pubs) :=
  ⟨build_ok_of_hasCore,
    fun drugs pubs _ h => build_skip_bad_title drugs pubs h,
    build_skip_empty_drug⟩

/-- C2 (witness): a fully fielded record builds without error, and a
record with a non-string title is skipped. -/
theorem claim_C2_witness :
    (∃ g, build_drug_mention_graph ["aspirin"]
      [[("title", PyVal.str "aspirin study"), ("journal", PyVal.str "j"),
        ("date", PyVal.str "d"), ("original_title", PyVal.str "T"),
        ("source_type", PyVal.str "s"), ("id", PyVal.str "1")]] =
        .ok g) ∧
    build_drug_mention_graph ["x"] [[("title", PyVal.int 3)]] =
      build_drug_mention_graph ["x"] [] :=
  ⟨claim_C2_no_failure.1 ["aspirin"]
      [[("title", PyVal.str "aspirin study"), ("journal", PyVal.str "j"),
        ("date", PyVal.str "d"), ("original_title", PyVal.str "T"),
        ("source_type", PyVal.str "s"), ("id", PyVal.str "1")]]
      (by decide),
    claim_C2_no_failure.2.1 ["x"] [] [("title", PyVal.int 3)] (by decide)⟩

/-- C3: in every graph the builder returns, every (entity, journal)
bucket is free of fully equal duplicate occurrence records, and
re-presenting a record already in the input leaves the graph unchanged
(duplicate insertion is a no-op). -/
theorem claim_C3_dedup {drugs : List String} {pubs : List Record} {g : Graph}
    (h : build_drug_mention_graph drugs pubs = .ok g) :
    (∀ d jm j b, alookup g d = some jm → alookup jm j = some b → b.Nodup) ∧
    (∀ p ∈ pubs, build_drug_mention_graph drugs (pubs ++ [p]) = .ok g) :=
  ⟨(wf_build h).2, fun _ hp => (build_append_self hp).trans h⟩

/-- C3 (witness): the dedup invariant and idempotent re-presentation on a
concrete one-record build. -/
theorem claim_C3_witness :
    (∀ d jm j b,
      alookup [("a", [(PyVal.str "j",
        [(⟨PyVal.str "d", PyVal.str "T", PyVal.str "s", PyVal.str "1"⟩ :
          Occ)])])] d = some jm →
      alookup jm j = some b → b.Nodup) ∧
    (∀ p ∈ [[("title", PyVal.str "a"), ("journal", PyVal.str "j"),
        ("date", PyVal.str "d"), ("original_title", PyVal.str "T"),
        ("source_type", PyVal.str "s"), ("id", PyVal.str "1")]],
      build_drug_mention_graph ["a"]
        ([[("title", PyVal.str "a"), ("journal", PyVal.str "j"),
          ("date", PyVal.str "d"), ("original_title", PyVal.str "T"),
          ("source_type", PyVal.str "s"), ("id", PyVal.str "1")]] ++ [p]) =
        .ok [("a", [(PyVal.str "j",
          [(⟨PyVal.str "d", PyVal.str "T", PyVal.str "s", PyVal.str "1"⟩ :
            Occ)])])]) :=
  claim_C3_dedup (by rfl)

/-- C4: in a graph the builder returns, an entity key exists iff the
entity is a non-empty vocabulary entry matched by at least one record's
title; a journal key exists under an entity iff some matching record for
that entity carries that journal; an empty vocabulary or record list
yields the empty graph. -/
theorem claim_C4_key_existence {drugs : List String} {pubs : List Record}
    {g : Graph} (h : build_drug_mention_graph drugs pubs = .ok g) :
    (∀ d, (alookup g d).isSome ↔
      (d ∈ drugs ∧ d ≠ "" ∧ ∃ p ∈ pubs, matchesRec d p = true)) ∧
    (∀ d j, jkeyIn g d j ↔
      (d ∈ drugs ∧ d ≠ "" ∧
        ∃ p ∈ pubs, matchesRec d p = true ∧ alookup p "journal" = some j)) ∧
    ((drugs = [] ∨ pubs = []) → g = []) := by
  refine ⟨fun d => ?_, fun d j => ?_, fun hemp => ?_⟩
  · rw [ekey_iff_ex_occ (wf_build h).1 d]
    constructor
    · rintro ⟨j, o, hocc⟩
      obtain ⟨hdm, hne, p, hpm, hm, -⟩ := (build_occ_char h d j o).mp hocc
      exact ⟨hdm, hne, p, hpm, hm⟩
    · rintro ⟨hdm, hne, p, hpm, hm⟩
      obtain ⟨⟨j, o⟩, hr⟩ := build_ok_recOcc h d hdm hne p hpm hm
      exact ⟨j, o, (build_occ_char h d j o).mpr ⟨hdm, hne, p, hpm, hm, hr⟩⟩
  · rw [jkey_iff_ex_occ (wf_build h).1 d j]
    constructor
    · rintro ⟨o, hocc⟩
      obtain ⟨hdm, hne, p, hpm, hm, hr⟩ := (build_occ_char h d j o).mp hocc
      exact ⟨hdm, hne, p, hpm, hm, recOcc_journal hr⟩
    · rintro ⟨hdm, hne, p, hpm, hm, hjp⟩
      obtain ⟨⟨j', o⟩, hr⟩ := build_ok_recOcc h d hdm hne p hpm hm
      have hj' : alookup p "journal" = some j' := recOcc_journal hr
      rw [hjp] at hj'
      cases hj'
      exact ⟨o, (build_occ_char h d j o).mpr ⟨hdm, hne, p, hpm, hm, hr⟩⟩
  · rcases hemp with rfl | rfl
    · have := build_nil_drugs pubs
      rw [this] at h
      exact ((Except.ok.injEq _ _).mp h).symm
    · have := build_nil_pubs drugs
      rw [this] at h
      exact ((Except.ok.injEq _ _).mp h).symm

/-- C4 (witness): entity-key existence instantiated on a concrete
one-record build. -/
theorem claim_C4_witness :
    (alookup [("aspirin", [(PyVal.str "jom",
        [(⟨PyVal.str "2020-01-01", PyVal.str "A Study", PyVal.str "pubmed",
          PyVal.str "pub1"⟩ : Occ)])])] "aspirin").isSome ↔
      ("aspirin" ∈ ["aspirin"] ∧ "aspirin" ≠ "" ∧
        ∃ p ∈ [[("id", PyVal.str "pub1"),
          ("title", PyVal.str "a study on aspirin"),
          ("original_title", PyVal.str "A Study"),
          ("journal", PyVal.str "jom"), ("date", PyVal.str "2020-01-01"),
          ("source_type", PyVal.str "pubmed")]],
          matchesRec "aspirin" p = true) :=
  (claim_C4_key_existence (by rfl)).1 "aspirin"

/-- C5: permuting the vocabulary and/or the record list never changes the
set of entity keys, the set of journal keys under each entity, or the set
of occurrence records in each bucket of the returned graph. -/
theorem claim_C5_perm {drugs1 drugs2 : List String}
    {pubs1 pubs2 : List Record} {g1 g2 : Graph}
    (hd : drugs1.Perm drugs2) (hp : pubs1.Perm pubs2)
    (h1 : build_drug_mention_graph drugs1 pubs1 = .ok g1)
    (h2 : build_drug_mention_graph drugs2 pubs2 = .ok g2) :
    (∀ d, (alookup g1 d).isSome ↔ (alookup g2 d).isSome) ∧
    (∀ d j, jkeyIn g1 d j ↔ jkeyIn g2 d j) ∧
    (∀ d j o, occIn g1 d j o ↔ occIn g2 d j o) := by
  have hocc : ∀ d j o, occIn g1 d j o ↔ occIn g2 d j o := by
    intro d j o
    rw [build_occ_char h1 d j o, build_occ_char h2 d j o]
    constructor
    · rintro ⟨hdm, hne, p, hpm, hm, hr⟩
      exact ⟨hd.mem_iff.mp hdm, hne, p, hp.mem_iff.mp hpm, hm, hr⟩
    · rintro ⟨hdm, hne, p, hpm, hm, hr⟩
      exact ⟨hd.mem_iff.mpr hdm, hne, p, hp.mem_iff.mpr hpm, hm, hr⟩
  refine ⟨fun d => ?_, fun d j => ?_, hocc⟩
  · rw [ekey_iff_ex_occ (wf_build h1).1 d, ekey_iff_ex_occ (wf_build h2).1 d]
    constructor
    · rintro ⟨j, o, ho⟩
      exact ⟨j, o, (hocc d j o).mp ho⟩
    · rintro ⟨j, o, ho⟩
      exact ⟨j, o, (hocc d j o).mpr ho⟩
  · rw [jkey_iff_ex_occ (wf_build h1).1 d j,
      jkey_iff_ex_occ (wf_build h2).1 d j]
    constructor
    · rintro ⟨o, ho⟩
      exact ⟨o, (hocc d j o).mp ho⟩
    · rintro ⟨o, ho⟩
      exact ⟨o, (hocc d j o).mpr ho⟩

/-- C5 (witness): the permutation invariance instantiated on a swapped
two-entity vocabulary over one record matching both entities. -/
theorem claim_C5_witness :
    (∀ d, (alookup [("a", [(PyVal.str "j",
        [(⟨PyVal.str "d", PyVal.str "T", PyVal.str "s", PyVal.str "1"⟩ :
          Occ)])]),
      ("b", [(PyVal.str "j",
        [(⟨PyVal.str "d", PyVal.str "T", PyVal.str "s", PyVal.str "1"⟩ :
          Occ)])])] d).isSome ↔
      (alookup [("b", [(PyVal.str "j",
        [(⟨PyVal.str "d", PyVal.str "T", PyVal.str "s", PyVal.str "1"⟩ :
          Occ)])]),
      ("a", [(PyVal.str "j",
        [(⟨PyVal.str "d", PyVal.str "T", PyVal.str "s", PyVal.str "1"⟩ :
          Occ)])])] d).isSome) ∧
    (∀ d j, jkeyIn [("a", [(PyVal.str "j",
        [(⟨PyVal.str "d", PyVal.str "T", PyVal.str "s", PyVal.str "1"⟩ :
          Occ)])]),
      ("b", [(PyVal.str "j",
        [(⟨PyVal.str "d", PyVal.str "T", PyVal.str "s", PyVal.str "1"⟩ :
          Occ)])])] d j ↔
      jkeyIn [("b", [(PyVal.str "j",
        [(⟨PyVal.str "d", PyVal.str "T", PyVal.str "s", PyVal.str "1"⟩ :
          Occ)])]),
      ("a", [(PyVal.str "j",
        [(⟨PyVal.str "d", PyVal.str "T", PyVal.str "s", PyVal.str "1"⟩ :
          Occ)])])] d j) ∧
    (∀ d j o, occIn [("a", [(PyVal.str "j",
        [(⟨PyVal.str "d", PyVal.str "T", PyVal.str "s", PyVal.str "1"⟩ :
          Occ)])]),
      ("b", [(PyVal.str "j",
        [(⟨PyVal.str "d", PyVal.str "T", PyVal.str "s", PyVal.str "1"⟩ :
          Occ)])])] d j o ↔
      occIn [("b", [(PyVal.str "j",
        [(⟨PyVal.str "d", PyVal.str "T", PyVal.str "s", PyVal.str "1"⟩ :
          Occ)])]),
      ("a", [(PyVal.str "j",
        [(⟨PyVal.str "d", PyVal.str "T", PyVal.str "s", PyVal.str "1"⟩ :
          Occ)])])] d j o) :=
  claim_C5_perm (List.Perm.swap "b" "a" [])
    (List.Perm.refl [[("title", PyVal.str "a b"), ("journal", PyVal.str "j"),
      ("date", PyVal.str "d"), ("original_title", PyVal.str "T"),
      ("source_type", PyVal.str "s"), ("id", PyVal.str "1")]])
    (show build_drug_mention_graph ["a", "b"]
      [[("title", PyVal.str "a b"), ("journal", PyVal.str "j"),
        ("date", PyVal.str "d"), ("original_title", PyVal.str "T"),
        ("source_type", PyVal.str "s"), ("id", PyVal.str "1")]] =
      Except.ok [("a", [(PyVal.str "j",
        [(⟨PyVal.str "d", PyVal.str "T", PyVal.str "s", PyVal.str "1"⟩ :
          Occ)])]),
      ("b", [(PyVal.str "j",
        [(⟨PyVal.str "d", PyVal.str "T", PyVal.str "s", PyVal.str "1"⟩ :
          Occ)])])] from by rfl)
    (show build_drug_mention_graph ["b", "a"]
      [[("title", PyVal.str "a b"), ("journal", PyVal.str "j"),
        ("date", PyVal.str "d"), ("original_title", PyVal.str "T"),
        ("source_type", PyVal.str "s"), ("id", PyVal.str "1")]] =
      Except.ok [("b", [(PyVal.str "j",
        [(⟨PyVal.str "d", PyVal.str "T", PyVal.str "s", PyVal.str "1"⟩ :
          Occ)])]),
      ("a", [(PyVal.str "j",
        [(⟨PyVal.str "d", PyVal.str "T", PyVal.str "s", PyVal.str "1"⟩ :
          Occ)])])] from by rfl)

/-! ## Journal query: accumulation lemmas (C6) -/

theorem setAdd_nodup {α : Type} [DecidableEq α] {l : List α} (h : l.Nodup)
    (a : α) : (setAdd l a).Nodup := by
  unfold setAdd
  by_cases hm : a ∈ l
  · simpa [if_pos hm] using h
  · simp only [if_neg hm]
    exact List.Nodup.append h (List.nodup_singleton a)
      (fun x hx hxa => hm ((List.mem_singleton.mp hxa) ▸ hx))

theorem foldl_setAdd_append {α : Type} [DecidableEq α] :
    ∀ (l : List α) (acc : List α), (acc ++ l).Nodup →
      l.foldl setAdd acc = acc ++ l
  | [], acc, _ => by simp
  | a :: rest, acc, h => by
    have ha : a ∉ acc := by
      intro hmem
      have := List.disjoint_of_nodup_append h
      exact this hmem (List.mem_cons_self a rest)
    have hstep : setAdd acc a = acc ++ [a] := by simp [setAdd, ha]
    have hres := foldl_setAdd_append rest (acc ++ [a])
      (by simpa using h)
    simp only [List.foldl_cons, hstep, hres]
    simp

theorem dedupFirst_of_nodup {l : List String} (h : l.Nodup) :
    dedupFirst l = l := by
  simpa using foldl_setAdd_append l [] (by simpa using h)

theorem mem_foldl_setAdd {α : Type} [DecidableEq α] :
    ∀ (l : List α) (acc : List α) (x : α),
      x ∈ l.foldl setAdd acc ↔ x ∈ acc ∨ x ∈ l
  | [], acc, x => by simp
  | a :: rest, acc, x => by
    rw [List.foldl_cons, mem_foldl_setAdd rest (setAdd acc a) x, mem_setAdd]
    simp only [List.mem_cons]
    tauto

theorem foldl_setAdd_nodup {α : Type} [DecidableEq α] :
    ∀ (l : List α) (acc : List α), acc.Nodup → (l.foldl setAdd acc).Nodup
  | [], _, h => h
  | a :: rest, acc, h => by
    rw [List.foldl_cons]
    exact foldl_setAdd_nodup rest (setAdd acc a) (setAdd_nodup h a)

theorem map_fst_jtdAdd (m : List (String × List String)) (j d : String) :
    (jtdAdd m j d).map Prod.fst = setAdd (m.map Prod.fst) j := by
  induction m with
  | nil => simp [jtdAdd, setAdd]
  | cons e rest ih =>
    obtain ⟨k, s⟩ := e
    by_cases hk : k = j
    · subst hk
      simp [jtdAdd, setAdd, List.mem_cons]
    · simp only [jtdAdd, if_neg hk, List.map_cons, ih]
      by_cases hmem : j ∈ rest.map Prod.fst
      · simp [setAdd, List.mem_cons, hmem]
      · have h1 : ¬ (j = k ∨ j ∈ rest.map Prod.fst) := by
          rintro (h | h)
          · exact hk h.symm
          · exact hmem h
        have h2 : ¬ (j = k) := fun h => hk h.symm
        simp [setAdd, List.mem_cons, hmem, h1, h2]

theorem alookup_jtdAdd_self (m : List (String × List String)) (j d : String) :
    alookup (jtdAdd m j d) j =
      some (setAdd ((alookup m j).getD []) d) := by
  induction m with
  | nil => simp [jtdAdd, alookup, setAdd]
  | cons e rest ih =>
    obtain ⟨k, s⟩ := e
    by_cases hk : k = j
    · subst hk
      simp [jtdAdd, alookup]
    · simp [jtdAdd, alookup, hk, ih]

theorem alookup_jtdAdd_ne (m : List (String × List String)) (j d : String)
    {j' : String} (h : j' ≠ j) :
    alookup (jtdAdd m j d) j' = alookup m j' := by
  induction m with
  | nil => simp [jtdAdd, alookup, Ne.symm h]
  | cons e rest ih =>
    obtain ⟨k, s⟩ := e
    by_cases hk : k = j
    · subst hk
      simp [jtdAdd, alookup, Ne.symm h]
    · simp [jtdAdd, alookup, hk, ih]

theorem journalToDrugs_eq (g : QGraph) :
    journalToDrugs g = jtdFold (entJournalPairs g) [] := by
  suffices hgen : ∀ (g1 : QGraph) (m : List (String × List String)),
      g1.foldl (fun m e => e.2.foldl (fun m2 je => jtdAdd m2 je.1 e.1) m) m =
        jtdFold (entJournalPairs g1) m by
    exact hgen g []
  intro g1
  induction g1 with
  | nil => intro m; rfl
  | cons e rest ih =>
    intro m
    have h1 : entJournalPairs (e :: rest) =
        (e.2.map (fun je => (e.1, je.1))) ++ entJournalPairs rest := by
      simp [entJournalPairs]
    rw [List.foldl_cons, ih (e.2.foldl (fun m2 je => jtdAdd m2 je.1 e.1) m), h1]
    unfold jtdFold
    rw [List.foldl_append, List.foldl_map]

theorem map_fst_jtdFold :
    ∀ (l : List (String × String)) (m : List (String × List String)),
      (jtdFold l m).map Prod.fst =
        (l.map Prod.snd).foldl setAdd (m.map Prod.fst)
  | [], _ => rfl
  | dj :: rest, m => by
    simp only [jtdFold, List.foldl_cons, List.map_cons]
    rw [← jtdFold, map_fst_jtdFold rest (jtdAdd m dj.2 dj.1),
      map_fst_jtdAdd]

theorem alookup_jtdFold :
    ∀ (l : List (String × String)) (m : List (String × List String))
      (j : String),
      alookup (jtdFold l m) j =
        match alookup m j with
        | some s => some ((drugsFor l j).foldl setAdd s)
        | none =>
          if drugsFor l j = [] then none
          else some ((drugsFor l j).foldl setAdd [])
  | [], m, j => by
    cases h : alookup m j <;> simp [jtdFold, drugsFor, h]
  | dj :: rest, m, j => by
    have hstep : jtdFold (dj :: rest) m = jtdFold rest (jtdAdd m dj.2 dj.1) :=
      rfl
    rw [hstep, alookup_jtdFold rest (jtdAdd m dj.2 dj.1) j]
    by_cases hj : dj.2 = j
    · have hdrugs : drugsFor (dj :: rest) j = dj.1 :: drugsFor rest j := by
        simp [drugsFor, List.filter_cons, hj]
      rw [hj, alookup_jtdAdd_self]
      cases hm : alookup m j with
      | none =>
        simp only [hm, Option.getD_none, hdrugs, List.foldl_cons]
        simp [setAdd]
      | some s =>
        simp only [hm, Option.getD_some, hdrugs, List.foldl_cons]
    · have hdrugs : drugsFor (dj :: rest) j = drugsFor rest j := by
        simp [drugsFor, List.filter_cons, hj]
      rw [alookup_jtdAdd_ne m dj.2 dj.1 (fun h => hj h.symm), hdrugs]

theorem map_snd_pairs :
    ∀ (g : QGraph), (entJournalPairs g).map Prod.snd =
      g.flatMap (fun e => e.2.map Prod.fst)
  | [] => rfl
  | e :: rest => by
    simp only [entJournalPairs, List.flatMap_cons, List.map_append,
      List.map_map]
    rw [← entJournalPairs, map_snd_pairs rest]
    rfl

theorem specOrder_eq (g : QGraph) :
    specOrder g = dedupFirst ((entJournalPairs g).map Prod.snd) := by
  rw [map_snd_pairs]
  rfl

theorem map_fst_journalToDrugs (g : QGraph) :
    (journalToDrugs g).map Prod.fst = specOrder g := by
  rw [journalToDrugs_eq, map_fst_jtdFold, specOrder_eq]
  rfl

theorem filter_pair_of_not_mem (x : String) (j : String) :
    ∀ (jm : QJMap), j ∉ jm.map Prod.fst →
      (jm.map (fun je => (x, je.1))).filter (fun dj => decide (dj.2 = j)) = []
  | [], _ => rfl
  | je :: rest, h => by
    have hne : je.1 ≠ j := fun he => h (by simp [he])
    have hrest : j ∉ rest.map Prod.fst := fun hm => h (by simp [hm])
    simp only [List.map_cons, List.filter_cons, decide_eq_true_eq, hne,
      decide_False]
    exact filter_pair_of_not_mem x j rest hrest

theorem drugsFor_entity (x : String) (j : String) :
    ∀ (jm : QJMap), (jm.map Prod.fst).Nodup →
      drugsFor (jm.map (fun je => (x, je.1))) j =
        if j ∈ jm.map Prod.fst then [x] else []
  | [], _ => by simp [drugsFor]
  | je :: rest, h => by
    simp only [List.map_cons] at h
    by_cases hj : je.1 = j
    · have hrest : j ∉ rest.map Prod.fst := by
        rw [← hj]
        exact (List.nodup_cons.mp h).1
      unfold drugsFor
      simp only [List.map_cons, List.filter_cons, hj, decide_True,
        List.map_cons]
      rw [filter_pair_of_not_mem x j rest hrest]
      simp [hj]
    · have hstep : drugsFor ((je :: rest).map (fun je2 => (x, je2.1))) j =
          drugsFor (rest.map (fun je2 => (x, je2.1))) j := by
        unfold drugsFor
        simp [List.filter_cons, hj]
      rw [hstep, drugsFor_entity x j rest (List.nodup_cons.mp h).2]
      have hiff : (j ∈ (je :: rest).map Prod.fst) ↔ (j ∈ rest.map Prod.fst) := by
        simp only [List.map_cons, List.mem_cons]
        constructor
        · rintro (rfl | hm)
          · exact absurd rfl hj
          · exact hm
        · exact Or.inr
      by_cases hm2 : j ∈ rest.map Prod.fst
      · simp [hiff, hm2]
      · simp [hiff, hm2]
        exact fun he => hj he.symm

theorem drugsFor_append (l1 l2 : List (String × String)) (j : String) :
    drugsFor (l1 ++ l2) j = drugsFor l1 j ++ drugsFor l2 j := by
  simp [drugsFor, List.filter_append]

theorem drugsFor_pairs :
    ∀ (g : QGraph) (j : String), (∀ e ∈ g, (e.2.map Prod.fst).Nodup) →
      drugsFor (entJournalPairs g) j =
        (g.filter (fun e => decide (j ∈ e.2.map Prod.fst))).map Prod.fst
  | [], _, _ => rfl
  | e :: rest, j, hjm => by
    have hpairs : entJournalPairs (e :: rest) =
        (e.2.map (fun je => (e.1, je.1))) ++ entJournalPairs rest := by
      simp [entJournalPairs]
    rw [hpairs, drugsFor_append,
      drugsFor_entity e.1 j e.2 (hjm e (List.mem_cons_self e rest)),
      drugsFor_pairs rest j (fun x hx => hjm x (List.mem_cons_of_mem e hx))]
    by_cases hmem : j ∈ e.2.map Prod.fst
    · simp [List.filter_cons, hmem]
    · simp [List.filter_cons, hmem]

theorem nodup_entity_list (g : QGraph) (j : String)
    (hkeys : (g.map Prod.fst).Nodup) :
    ((g.filter (fun e => decide (j ∈ e.2.map Prod.fst))).map Prod.fst).Nodup :=
  List.Nodup.sublist
    (List.Sublist.map Prod.fst (List.filter_sublist g)) hkeys

theorem dCount_eq_length (g : QGraph) (j : String) :
    dCount g j =
      ((g.filter (fun e => decide (j ∈ e.2.map Prod.fst))).map Prod.fst).length := by
  simp [dCount]

theorem alookup_of_mem_nodup {α β : Type} [DecidableEq α] :
    ∀ {l : List (α × β)} {k : α} {v : β},
      (l.map Prod.fst).Nodup → (k, v) ∈ l → alookup l k = some v
  | [], k, v, _, hm => absurd hm (List.not_mem_nil (k, v))
  | e :: rest, k, v, hnd, hm => by
    simp only [List.map_cons, List.nodup_cons] at hnd
    rcases List.mem_cons.mp hm with rfl | hm2
    · simp [alookup]
    · have hk : e.1 ≠ k := by
        intro he
        exact hnd.1 (he ▸ List.mem_map_of_mem Prod.fst hm2)
      simp only [alookup, if_neg hk]
      exact alookup_of_mem_nodup hnd.2 hm2

theorem jtd_keys_nodup (g : QGraph) :
    ((journalToDrugs g).map Prod.fst).Nodup := by
  rw [map_fst_journalToDrugs]
  rw [specOrder_eq]
  exact foldl_setAdd_nodup _ [] List.nodup_nil

theorem jtd_entry_count {g : QGraph} (hkeys : (g.map Prod.fst).Nodup)
    (hjm : ∀ e ∈ g, (e.2.map Prod.fst).Nodup)
    {x : String × List String} (hx : x ∈ journalToDrugs g) :
    x.2.length = dCount g x.1 := by
  have hlk : alookup (journalToDrugs g) x.1 = some x.2 :=
    alookup_of_mem_nodup (jtd_keys_nodup g) (by
      rw [show (x.1, x.2) = x from rfl]
      exact hx)
  rw [journalToDrugs_eq, alookup_jtdFold] at hlk
  simp only [alookup] at hlk
  by_cases hd : drugsFor (entJournalPairs g) x.1 = []
  · rw [if_pos hd] at hlk
    exact Option.noConfusion hlk
  · rw [if_neg hd] at hlk
    have hx2 : x.2 = (drugsFor (entJournalPairs g) x.1).foldl setAdd [] :=
      (Option.some.inj hlk).symm
    have hfil := drugsFor_pairs g x.1 hjm
    have hnd2 : (drugsFor (entJournalPairs g) x.1).Nodup := by
      rw [hfil]
      exact nodup_entity_list g x.1 hkeys
    rw [hx2, show (drugsFor (entJournalPairs g) x.1).foldl setAdd [] =
      dedupFirst (drugsFor (entJournalPairs g) x.1) from rfl,
      dedupFirst_of_nodup hnd2, hfil, ← dCount_eq_length]

theorem scan_foldl :
    ∀ (L : List (String × List String)) (acc : Option String × Int),
      (L.foldl scanStep acc = acc ∧
        ∀ x ∈ L, (x.2.length : Int) ≤ acc.2) ∨
      (∃ pre e post, L = pre ++ e :: post ∧
        L.foldl scanStep acc = (some e.1, (e.2.length : Int)) ∧
        acc.2 < (e.2.length : Int) ∧
        (∀ x ∈ pre, (x.2.length : Int) < (e.2.length : Int)) ∧
        (∀ x ∈ L, (x.2.length : Int) ≤ (e.2.length : Int)))
  | [], acc => Or.inl ⟨rfl, by simp⟩
  | a :: rest, acc => by
    by_cases h : (a.2.length : Int) > acc.2
    · have hstep : scanStep acc a = (some a.1, (a.2.length : Int)) := by
        simp [scanStep, h]
      rcases scan_foldl rest (some a.1, (a.2.length : Int)) with
        ⟨heq, hall⟩ | ⟨pre, e, post, hdec, hfold, hacc, hpre, hall⟩
      · right
        refine ⟨[], a, rest, by simp, ?_, h, by simp, ?_⟩
        · rw [List.foldl_cons, hstep, heq]
        · intro x hx
          rcases List.mem_cons.mp hx with rfl | hx2
          · exact le_refl _
          · exact hall x hx2
      · right
        refine ⟨a :: pre, e, post, by simp [hdec], ?_, ?_, ?_, ?_⟩
        · rw [List.foldl_cons, hstep, hfold]
        · exact lt_trans h hacc
        · intro x hx
          rcases List.mem_cons.mp hx with rfl | hx2
          · exact hacc
          · exact hpre x hx2
        · intro x hx
          rcases List.mem_cons.mp hx with rfl | hx2
          · exact le_of_lt hacc
          · exact hall x hx2
    · have hstep : scanStep acc a = acc := by
        simp [scanStep, h]
      rcases scan_foldl rest acc with
        ⟨heq, hall⟩ | ⟨pre, e, post, hdec, hfold, hacc, hpre, hall⟩
      · left
        refine ⟨by rw [List.foldl_cons, hstep, heq], ?_⟩
        intro x hx
        rcases List.mem_cons.mp hx with rfl | hx2
        · exact le_of_not_lt h
        · exact hall x hx2
      · right
        refine ⟨a :: pre, e, post, by simp [hdec], ?_, hacc, ?_, ?_⟩
        · rw [List.foldl_cons, hstep, hfold]
        · intro x hx
          rcases List.mem_cons.mp hx with rfl | hx2
          · exact lt_of_le_of_lt (le_of_not_lt h) hacc
          · exact hpre x hx2
        · intro x hx
          rcases List.mem_cons.mp hx with rfl | hx2
          · exact le_of_lt (lt_of_le_of_lt (le_of_not_lt h) hacc)
          · exact hall x hx2

/-- C6 (counterexample): a non-empty graph whose only entity has no
journal keys makes the query return `none`, not a journal name. -/
theorem claim_C6_counterexample :
    find_journal_with_most_unique_drugs [("a", [])] = none ∧
    ([("a", ([] : QJMap))] : QGraph) ≠ [] :=
  ⟨by rfl, by simp⟩

/-- C6 (amended): on a graph with distinct entity keys and distinct
journal keys per entity, the query returns `none` exactly when no journal
key exists anywhere (in particular on the empty graph); and whenever it
returns a journal, that journal maximizes the number of distinct entities
having a bucket under it, every journal encountered earlier in the
entity-then-journal iteration order having a strictly smaller count. -/
theorem claim_C6_most_unique {g : QGraph}
    (hkeys : (g.map Prod.fst).Nodup)
    (hjm : ∀ e ∈ g, (e.2.map Prod.fst).Nodup) :
    (find_journal_with_most_unique_drugs g = none ↔ specOrder g = []) ∧
    (∀ j, find_journal_with_most_unique_drugs g = some j →
      ∃ pre post, specOrder g = pre ++ j :: post ∧
        (∀ j2 ∈ pre, dCount g j2 < dCount g j) ∧
        (∀ j2 ∈ specOrder g, dCount g j2 ≤ dCount g j)) := by
  have hso : specOrder g = (journalToDrugs g).map Prod.fst :=
    (map_fst_journalToDrugs g).symm
  unfold find_journal_with_most_unique_drugs
  by_cases hg : g = []
  · subst hg
    constructor
    · simp [specOrder, dedupFirst]
    · intro j hj
      simp at hj
  · rw [if_neg (by simp [List.isEmpty_iff, hg] : ¬ (List.isEmpty g = true))]
    by_cases hjtd : journalToDrugs g = []
    · rw [if_pos (by simp [List.isEmpty_iff, hjtd])]
      constructor
      · simp [hso, hjtd]
      · intro j hj
        exact Option.noConfusion hj
    · rw [if_neg (by simp [List.isEmpty_iff, hjtd])]
      rcases scan_foldl (journalToDrugs g) (none, -1) with
        ⟨heq, hall⟩ | ⟨pre, e, post, hdec, hfold, hacc, hpre, hall⟩
      · exfalso
        cases hjtd2 : journalToDrugs g with
        | nil => exact hjtd hjtd2
        | cons x rest =>
          have hx := hall x (by rw [hjtd2]; exact List.mem_cons_self x rest)
          simp only [] at hx
          omega
      · have hjval : ∀ x ∈ journalToDrugs g, x.2.length = dCount g x.1 :=
          fun x hx => jtd_entry_count hkeys hjm hx
        have he1 : e ∈ journalToDrugs g := by
          rw [hdec]
          exact List.mem_append_right _ (List.mem_cons_self e post)
        constructor
        · constructor
          · intro hnone
            rw [hfold] at hnone
            exact Option.noConfusion hnone
          · intro hspec
            rw [hso] at hspec
            exact absurd (List.map_eq_nil_iff.mp hspec) hjtd
        · intro j hj
          rw [hfold] at hj
          have hej : e.1 = j := Option.some.inj hj
          refine ⟨pre.map Prod.fst, post.map Prod.fst, ?_, ?_, ?_⟩
          · rw [hso, hdec, ← hej]
            simp
          · intro j2 hj2
            obtain ⟨x, hxpre, rfl⟩ := List.mem_map.mp hj2
            have hx1 : x ∈ journalToDrugs g := by
              rw [hdec]
              exact List.mem_append_left _ hxpre
            have hlt := hpre x hxpre
            rw [← hej, ← hjval x hx1, ← hjval e he1]
            exact_mod_cast hlt
          · intro j2 hj2
            rw [hso] at hj2
            obtain ⟨x, hx1, rfl⟩ := List.mem_map.mp hj2
            have hle := hall x hx1
            rw [← hej, ← hjval x hx1, ← hjval e he1]
            exact_mod_cast hle

/-- C6 (witness): on a concrete graph where journal `"ja"` hosts two
entities and `"jb"` one, the query's answer `"ja"` is the first maximizer
in encounter order. -/
theorem claim_C6_witness :
    ∃ pre post,
      specOrder [("aspirin", [("ja", []), ("jb", [])]),
        ("paracetamol", [("ja", [])])] = pre ++ "ja" :: post ∧
      (∀ j2 ∈ pre,
        dCount [("aspirin", [("ja", []), ("jb", [])]),
          ("paracetamol", [("ja", [])])] j2 <
        dCount [("aspirin", [("ja", []), ("jb", [])]),
          ("paracetamol", [("ja", [])])] "ja") ∧
      (∀ j2 ∈ specOrder [("aspirin", [("ja", []), ("jb", [])]),
          ("paracetamol", [("ja", [])])],
        dCount [("aspirin", [("ja", []), ("jb", [])]),
          ("paracetamol", [("ja", [])])] j2 ≤
        dCount [("aspirin", [("ja", []), ("jb", [])]),
          ("paracetamol", [("ja", [])])] "ja") :=
  (claim_C6_most_unique (by decide) (by decide)).2 "ja" (by rfl)

/-! ## Related-drugs query lemmas (C7, C10) -/

theorem alookup_some_mem {α β : Type} [DecidableEq α] :
    ∀ {l : List (α × β)} {k : α} {v : β},
      alookup l k = some v → (k, v) ∈ l
  | [], k, v, h => by simp [alookup] at h
  | e :: rest, k, v, h => by
    by_cases hk : e.1 = k
    · rw [show e = (e.1, e.2) from rfl, alookup, if_pos hk] at h
      cases h
      rw [← hk]
      exact List.mem_cons_self _ _
    · rw [show e = (e.1, e.2) from rfl, alookup, if_neg hk] at h
      exact List.mem_cons_of_mem e (alookup_some_mem h)

theorem mentionCheck_ok {m : Mention} {b : Bool}
    (h : mentionCheck m = .ok b) : mentionIsPubmed m = b := by
  unfold mentionCheck pyGetDefault at h
  unfold mentionIsPubmed
  cases halk : alookup m "source_type" with
  | none =>
    rw [halk] at h
    have h3 : strStarts "" "pubmed" = b := Except.ok.inj h
    show false = b
    rw [← h3]
    rfl
  | some v =>
    rw [halk] at h
    cases v with
    | str s =>
      have h3 : strStarts s "pubmed" = b := Except.ok.inj h
      show strStarts s "pubmed" = b
      exact h3
    | pyNone => exact Except.noConfusion h
    | int n => exact Except.noConfusion h

theorem anyPubmed_ok :
    ∀ {ms : List Mention} {b : Bool}, anyPubmed ms = .ok b →
      ms.any mentionIsPubmed = b
  | [], b, h => by
    have : b = false := (Except.ok.inj h).symm
    simp [this]
  | m :: rest, b, h => by
    unfold anyPubmed at h
    obtain ⟨b1, hb1, hrest⟩ := except_bind_ok h
    rw [List.any_cons, mentionCheck_ok hb1]
    cases b1 with
    | true =>
      have : b = true := (Except.ok.inj hrest).symm
      simp [this]
    | false =>
      simp only [Bool.false_or]
      exact anyPubmed_ok hrest

theorem anyPubmed_ok_false_of_none {ms : List Mention}
    (h : ∀ m ∈ ms, alookup m "source_type" = none) :
    anyPubmed ms = .ok false := by
  induction ms with
  | nil => rfl
  | cons m rest ih =>
    have hm := h m (List.mem_cons_self m rest)
    have hcheck : mentionCheck m = .ok false := by
      unfold mentionCheck pyGetDefault
      rw [hm]
      rfl
    unfold anyPubmed
    rw [hcheck, except_ok_bind]
    exact ih (fun x hx => h x (List.mem_cons_of_mem m hx))

theorem pjFold_mem :
    ∀ (tjm : QJMap) (acc pj : List String),
      tjm.foldlM (fun acc2 je => do
        let b ← anyPubmed je.2
        pure (if b then setAdd acc2 je.1 else acc2)) acc = .ok pj →
      ∀ j, j ∈ pj ↔ j ∈ acc ∨
        ∃ ms, (j, ms) ∈ tjm ∧ ms.any mentionIsPubmed = true
  | [], acc, pj, h, j => by
    simp only [List.foldlM_nil, pure, Except.pure] at h
    cases h
    simp
  | je :: rest, acc, pj, h, j => by
    obtain ⟨j1, ms1⟩ := je
    simp only [List.foldlM_cons] at h
    obtain ⟨bmid, hbmid, hrest⟩ := except_bind_ok h
    obtain ⟨b1, hb1, hacc1⟩ := except_bind_ok hbmid
    have hacc1' : bmid = if b1 = true then setAdd acc j1 else acc := by
      simpa [pure, Except.pure] using hacc1.symm
    rw [pjFold_mem rest bmid pj hrest j]
    have hany := anyPubmed_ok hb1
    constructor
    · rintro (hmem | ⟨ms, hms, hms2⟩)
      · rw [hacc1'] at hmem
        cases b1 with
        | true =>
          rw [if_pos rfl] at hmem
          rcases mem_setAdd.mp hmem with hmem2 | rfl
          · exact Or.inl hmem2
          · exact Or.inr ⟨ms1, List.mem_cons_self _ _, hany⟩
        | false =>
          rw [if_neg Bool.false_ne_true] at hmem
          exact Or.inl hmem
      · exact Or.inr ⟨ms, List.mem_cons_of_mem _ hms, hms2⟩
    · rintro (hmem | ⟨ms, hms, hms2⟩)
      · left
        rw [hacc1']
        cases b1 with
        | true =>
          rw [if_pos rfl]
          exact mem_setAdd.mpr (Or.inl hmem)
        | false =>
          rw [if_neg Bool.false_ne_true]
          exact hmem
      · rcases List.mem_cons.mp hms with heq | hms3
        · obtain ⟨rfl, rfl⟩ := Prod.mk.injEq _ _ _ _ ▸ heq
          left
          rw [hacc1']
          have hb1t : b1 = true := hany.symm.trans hms2
          rw [hb1t, if_pos rfl]
          exact mem_setAdd.mpr (Or.inr rfl)
        · exact Or.inr ⟨ms, hms3, hms2⟩

theorem relInnerFold_mem (x : String) (pj : List String) :
    ∀ (jm : QJMap) (acc res : List String),
      jm.foldlM (fun acc2 je =>
        if je.1 ∈ pj then do
          let b ← anyPubmed je.2
          pure (if b then setAdd acc2 x else acc2)
        else pure acc2) acc = .ok res →
      ∀ d, d ∈ res ↔ d ∈ acc ∨
        (d = x ∧ ∃ j ms, (j, ms) ∈ jm ∧ j ∈ pj ∧
          ms.any mentionIsPubmed = true)
  | [], acc, res, h, d => by
    simp only [List.foldlM_nil, pure, Except.pure] at h
    cases h
    simp
  | je :: rest, acc, res, h, d => by
    obtain ⟨j1, ms1⟩ := je
    simp only [List.foldlM_cons] at h
    obtain ⟨acc1, hacc1, hrest⟩ := except_bind_ok h
    rw [relInnerFold_mem x pj rest acc1 res hrest d]
    by_cases hjp : j1 ∈ pj
    · rw [if_pos hjp] at hacc1
      obtain ⟨b1, hb1, hpure⟩ := except_bind_ok hacc1
      have hacc1' : acc1 = if b1 = true then setAdd acc x else acc := by
        simpa [pure, Except.pure] using hpure.symm
      have hany := anyPubmed_ok hb1
      constructor
      · rintro (hmem | ⟨rfl, j2, ms2, hjm2, hjp2, hpm2⟩)
        · rw [hacc1'] at hmem
          cases b1 with
          | true =>
            rw [if_pos rfl] at hmem
            rcases mem_setAdd.mp hmem with hmem2 | rfl
            · exact Or.inl hmem2
            · exact Or.inr ⟨rfl, j1, ms1, List.mem_cons_self _ _, hjp, hany⟩
          | false =>
            rw [if_neg Bool.false_ne_true] at hmem
            exact Or.inl hmem
        · exact Or.inr ⟨rfl, j2, ms2, List.mem_cons_of_mem _ hjm2, hjp2, hpm2⟩
      · rintro (hmem | ⟨rfl, j2, ms2, hjm2, hjp2, hpm2⟩)
        · left
          rw [hacc1']
          cases b1 with
          | true =>
            rw [if_pos rfl]
            exact mem_setAdd.mpr (Or.inl hmem)
          | false =>
            rw [if_neg Bool.false_ne_true]
            exact hmem
        · rcases List.mem_cons.mp hjm2 with heq | hjm3
          · obtain ⟨rfl, rfl⟩ := Prod.mk.injEq _ _ _ _ ▸ heq
            left
            rw [hacc1', hany.symm.trans hpm2, if_pos rfl]
            exact mem_setAdd.mpr (Or.inr rfl)
          · exact Or.inr ⟨rfl, j2, ms2, hjm3, hjp2, hpm2⟩
    · rw [if_neg hjp] at hacc1
      have hacc1' : acc1 = acc := by
        simpa [pure, Except.pure] using hacc1.symm
      subst hacc1'
      constructor
      · rintro (hmem | ⟨rfl, j2, ms2, hjm2, hjp2, hpm2⟩)
        · exact Or.inl hmem
        · exact Or.inr ⟨rfl, j2, ms2, List.mem_cons_of_mem _ hjm2, hjp2, hpm2⟩
      · rintro (hmem | ⟨rfl, j2, ms2, hjm2, hjp2, hpm2⟩)
        · exact Or.inl hmem
        · rcases List.mem_cons.mp hjm2 with heq | hjm3
          · obtain ⟨rfl, rfl⟩ := Prod.mk.injEq _ _ _ _ ▸ heq
            exact absurd hjp2 hjp
          · exact Or.inr ⟨rfl, j2, ms2, hjm3, hjp2, hpm2⟩

theorem relFold_mem (t : String) (pj : List String) :
    ∀ (g : QGraph) (acc res : List String),
      g.foldlM (fun acc e =>
        if e.1 = t then pure acc
        else e.2.foldlM (fun acc2 je =>
          if je.1 ∈ pj then do
            let b ← anyPubmed je.2
            pure (if b then setAdd acc2 e.1 else acc2)
          else pure acc2) acc) acc = .ok res →
      ∀ d, d ∈ res ↔ d ∈ acc ∨
        (d ≠ t ∧ ∃ jm, (d, jm) ∈ g ∧ ∃ j ms, (j, ms) ∈ jm ∧ j ∈ pj ∧
          ms.any mentionIsPubmed = true)
  | [], acc, res, h, d => by
    simp only [List.foldlM_nil, pure, Except.pure] at h
    cases h
    simp
  | e :: rest, acc, res, h, d => by
    obtain ⟨x, jm1⟩ := e
    simp only [List.foldlM_cons] at h
    obtain ⟨acc1, hacc1, hrest⟩ := except_bind_ok h
    rw [relFold_mem t pj rest acc1 res hrest d]
    by_cases hxt : x = t
    · rw [if_pos hxt] at hacc1
      have hacc1' : acc1 = acc := by
        simpa [pure, Except.pure] using hacc1.symm
      subst hacc1'
      constructor
      · rintro (hmem | ⟨hdt, jm2, hjm2, hrest2⟩)
        · exact Or.inl hmem
        · exact Or.inr ⟨hdt, jm2, List.mem_cons_of_mem _ hjm2, hrest2⟩
      · rintro (hmem | ⟨hdt, jm2, hjm2, hrest2⟩)
        · exact Or.inl hmem
        · rcases List.mem_cons.mp hjm2 with heq | hjm3
          · obtain ⟨rfl, rfl⟩ := Prod.mk.injEq _ _ _ _ ▸ heq
            exact absurd hxt hdt
          · exact Or.inr ⟨hdt, jm2, hjm3, hrest2⟩
    · rw [if_neg hxt] at hacc1
      rw [relInnerFold_mem x pj jm1 acc acc1 hacc1 d]
      constructor
      · rintro ((hmem | ⟨rfl, hex⟩) | ⟨hdt, jm2, hjm2, hrest2⟩)
        · exact Or.inl hmem
        · exact Or.inr ⟨hxt, jm1, List.mem_cons_self _ _, hex⟩
        · exact Or.inr ⟨hdt, jm2, List.mem_cons_of_mem _ hjm2, hrest2⟩
      · rintro (hmem | ⟨hdt, jm2, hjm2, hrest2⟩)
        · exact Or.inl (Or.inl hmem)
        · rcases List.mem_cons.mp hjm2 with heq | hjm3
          · obtain ⟨rfl, rfl⟩ := Prod.mk.injEq _ _ _ _ ▸ heq
            exact Or.inl (Or.inr ⟨rfl, hrest2⟩)
          · exact Or.inr ⟨hdt, jm2, hjm3, hrest2⟩

theorem pjScan_mem {tjm : QJMap} {pj : List String}
    (h : pjScan tjm = .ok pj) (j : String) :
    j ∈ pj ↔ ∃ ms, (j, ms) ∈ tjm ∧ ms.any mentionIsPubmed = true := by
  have h2 := pjFold_mem tjm [] pj h j
  simpa using h2

theorem relScan_mem {g : QGraph} {t : String} {pj res : List String}
    (h : relScan g t pj = .ok res) (d : String) :
    d ∈ res ↔ (d ≠ t ∧ ∃ jm, (d, jm) ∈ g ∧ ∃ j ms, (j, ms) ∈ jm ∧
      j ∈ pj ∧ ms.any mentionIsPubmed = true) := by
  have h2 := relFold_mem t pj g [] res h d
  simpa using h2

theorem pjScan_ok_nil {tjm : QJMap}
    (h : ∀ j ms, (j, ms) ∈ tjm → ∀ m ∈ ms,
      alookup m "source_type" = none) :
    pjScan tjm = .ok [] := by
  unfold pjScan
  suffices hgen : ∀ (l : QJMap),
      (∀ j ms, (j, ms) ∈ l → ∀ m ∈ ms, alookup m "source_type" = none) →
      ∀ acc : List String,
        l.foldlM (fun acc2 je => do
          let b ← anyPubmed je.2
          pure (if b then setAdd acc2 je.1 else acc2)) acc = .ok acc by
    exact hgen tjm h []
  intro l
  induction l with
  | nil => intro _ acc; rfl
  | cons je rest ih =>
    intro hl acc
    have hany : anyPubmed je.2 = .ok false :=
      anyPubmed_ok_false_of_none (hl je.1 je.2 (by
        rw [show (je.1, je.2) = je from rfl]
        exact List.mem_cons_self je rest))
    simp only [List.foldlM_cons, hany, except_ok_bind, except_pure_bind]
    exact ih (fun j ms hm m hmem => hl j ms (List.mem_cons_of_mem je hm) m hmem)
      acc

/-- C7: when `find_related_drugs_by_pubmed_journals` returns a result
set, that set is empty if the normalized target is absent, empty if the
target has no journal with a pubmed-sourced mention, and otherwise
contains exactly the other entities having a pubmed-sourced mention in
some journal where the target also has one — the provenance constraint
holding on both sides. -/
theorem claim_C7_related {g : QGraph} {target : String} {res : List String}
    (h : find_related_drugs_by_pubmed_journals g target = .ok res) :
    (alookup g (pynorm target) = none → res = []) ∧
    (∀ tjm, alookup g (pynorm target) = some tjm →
      ((∀ j ms, (j, ms) ∈ tjm → ms.any mentionIsPubmed = false) →
        res = []) ∧
      (∀ d, d ∈ res ↔ (d ≠ pynorm target ∧
        ∃ jm, (d, jm) ∈ g ∧ ∃ j ms, (j, ms) ∈ jm ∧
          (∃ ms2, (j, ms2) ∈ tjm ∧ ms2.any mentionIsPubmed = true) ∧
          ms.any mentionIsPubmed = true))) := by
  unfold find_related_drugs_by_pubmed_journals at h
  by_cases hg : g = []
  · subst hg
    have hres : ([] : List String) = res := Except.ok.inj h
    constructor
    · intro _
      exact hres.symm
    · intro tjm htjm
      simp [alookup] at htjm
  · rw [if_neg (by simp [List.isEmpty_iff, hg])] at h
    cases halk : alookup g (pynorm target) with
    | none =>
      rw [halk] at h
      have hres : ([] : List String) = res := Except.ok.inj h
      constructor
      · intro _
        exact hres.symm
      · intro tjm htjm
        exact Option.noConfusion htjm
    | some tjm0 =>
      rw [halk] at h
      obtain ⟨pj, hpj, hrest⟩ := except_bind_ok h
      constructor
      · intro hnone
        exact Option.noConfusion hnone
      · intro tjm htjm
        cases Option.some.inj htjm
        by_cases hpjnil : pj = []
        · rw [if_pos hpjnil] at hrest
          have hres : ([] : List String) = res := Except.ok.inj hrest
          refine ⟨fun _ => hres.symm, fun d => ?_⟩
          rw [← hres]
          constructor
          · intro hd
            exact absurd hd (List.not_mem_nil d)
          · rintro ⟨-, -, -, j, -, -, ⟨ms2, hms2, hany2⟩, -⟩
            have hjpj : j ∈ pj :=
              (pjScan_mem hpj j).mpr ⟨ms2, hms2, hany2⟩
            rw [hpjnil] at hjpj
            exact absurd hjpj (List.not_mem_nil j)
        · rw [if_neg hpjnil] at hrest
          refine ⟨fun hall => ?_, fun d => ?_⟩
          · exfalso
            obtain ⟨j, hj⟩ := List.exists_mem_of_ne_nil pj hpjnil
            obtain ⟨ms, hms, hany⟩ := (pjScan_mem hpj j).mp hj
            rw [hall j ms hms] at hany
            exact Bool.noConfusion hany
          · rw [relScan_mem hrest d]
            constructor
            · rintro ⟨hdt, jm, hjm, j, ms, hjms, hjpj, hpm⟩
              obtain ⟨ms2, hms2, hany2⟩ := (pjScan_mem hpj j).mp hjpj
              exact ⟨hdt, jm, hjm, j, ms, hjms, ⟨ms2, hms2, hany2⟩, hpm⟩
            · rintro ⟨hdt, jm, hjm, j, ms, hjms, ⟨ms2, hms2, hany2⟩, hpm⟩
              exact ⟨hdt, jm, hjm, j, ms, hjms,
                (pjScan_mem hpj j).mpr ⟨ms2, hms2, hany2⟩, hpm⟩

/-- C7 (witness): on a concrete two-entity graph sharing a pubmed-linked
journal, membership of `"paracetamol"` in the result is characterized as
claimed. -/
theorem claim_C7_witness :
    "paracetamol" ∈ ["paracetamol"] ↔
      ("paracetamol" ≠ pynorm "aspirin" ∧
        ∃ jm, ("paracetamol", jm) ∈
          ([("aspirin", [("ja", [[("source_type", PyVal.str "pubmed")]])]),
            ("paracetamol",
              [("ja", [[("source_type", PyVal.str "pubmed")]])])] : QGraph) ∧
        ∃ j ms, (j, ms) ∈ jm ∧
          (∃ ms2, (j, ms2) ∈
            ([("ja", [[("source_type", PyVal.str "pubmed")]])] : QJMap) ∧
            ms2.any mentionIsPubmed = true) ∧
          ms.any mentionIsPubmed = true) :=
  ((claim_C7_related (by rfl)).2
    [("ja", [[("source_type", PyVal.str "pubmed")]])] (by rfl)).2
    "paracetamol"

/-- C10: on a graph whose mention records all lack the `source_type`
field, the defaulting lookup reads `""`, no mention passes the
`"pubmed"` prefix test, and the query returns the empty set instead of
raising. -/
theorem claim_C10_missing_source_type {g : QGraph} {target : String}
    (h : ∀ e ∈ g, ∀ je ∈ e.2, ∀ m ∈ je.2,
      alookup m "source_type" = none) :
    find_related_drugs_by_pubmed_journals g target = .ok [] := by
  unfold find_related_drugs_by_pubmed_journals
  by_cases hg : g = []
  · subst hg
    rfl
  · rw [if_neg (by simp [List.isEmpty_iff, hg])]
    cases halk : alookup g (pynorm target) with
    | none => rfl
    | some tjm =>
      have htmem : (pynorm target, tjm) ∈ g := alookup_some_mem halk
      have hfold : pjScan tjm = .ok [] :=
        pjScan_ok_nil (fun j ms hms m hm =>
          h (pynorm target, tjm) htmem (j, ms) hms m hm)
      show (pjScan tjm >>= fun pj =>
        if pj = [] then pure [] else relScan g (pynorm target) pj) =
        Except.ok []
      rw [hfold, except_ok_bind, if_pos rfl]
      rfl

/-- C10 (witness): a concrete graph whose only mention lacks
`source_type` yields the empty result without error. -/
theorem claim_C10_witness :
    find_related_drugs_by_pubmed_journals
      [("a", [("j", [[("date", PyVal.str "x")]])]),
        ("b", [("j", [[("date", PyVal.str "y")]])])] "a" = .ok [] :=
  claim_C10_missing_source_type (by decide)

/-! ## Date parsing lemmas (C8, C9) -/

theorem tryFormats_iso :
    ∀ {fs : List DateFmt} {s out : String},
      tryFormats fs s = some out → ∃ y m d, out = isoStr y m d
  | [], _, _, h => Option.noConfusion h
  | f :: rest, s, out, h => by
    unfold tryFormats at h
    cases hs : strptimeValid f s with
    | none =>
      rw [hs] at h
      exact tryFormats_iso h
    | some r =>
      obtain ⟨y, m, d⟩ := r
      rw [hs] at h
      exact ⟨y, m, d, (Option.some.inj h).symm⟩

theorem tryFormats_none :
    ∀ {fs : List DateFmt} {s : String}, tryFormats fs s = none →
      ∀ f ∈ fs, strptimeValid f s = none
  | [], _, _, f, hf => absurd hf (List.not_mem_nil f)
  | f0 :: rest, s, h, f, hf => by
    unfold tryFormats at h
    cases hs : strptimeValid f0 s with
    | none =>
      rw [hs] at h
      rcases List.mem_cons.mp hf with rfl | hf2
      · exact hs
      · exact tryFormats_none h f hf2
    | some r =>
      obtain ⟨y, m, d⟩ := r
      rw [hs] at h
      exact Option.noConfusion h

theorem parse_date_str (s : String) :
    parse_date (.str s) =
      if s = "" then UNKNOWN_DATE_PLACEHOLDER
      else if preprocessDate s = "" then UNKNOWN_DATE_PLACEHOLDER
      else
        match tryFormats formats_to_try (preprocessDate s) with
        | some out => out
        | none => preprocessDate s := rfl

theorem tryFormats_dmY_first {s : String} {y m d : Nat}
    (h : strptimeValid .dmY s = some (y, m, d)) :
    tryFormats formats_to_try s = some (isoStr y m d) := by
  show tryFormats (DateFmt.dmY ::
    [DateFmt.mdY, DateFmt.Ymd, DateFmt.Ydm, DateFmt.dBY, DateFmt.BdY,
      DateFmt.dbY, DateFmt.bdY]) s = some (isoStr y m d)
  unfold tryFormats
  rw [h]

/-- C8 (counterexample): the dash-separated pair is ordered
month-before-day first: `"2020-01-02"` resolves as month `01`, day `02`
(`%Y-%m-%d` is tried before `%Y-%d-%m`), not as the day-before-month
reading `"2020-02-01"` the claimed ordering would produce. -/
theorem claim_C8_counterexample :
    parse_date (.str "2020-01-02") = "2020-01-02" ∧
    parse_date (.str "2020-01-02") ≠ "2020-02-01" :=
  ⟨by rfl, by decide⟩

/-- C8 (amended): the format list is tried in the source order, returning
the first successful parse reformatted as `YYYY-MM-DD`.  The
slash-separated pair tries day-before-month first, so `"01/02/2020"`
resolves as day 1, month 2; the dash-separated pair tries
year-month-day before year-day-month, so `"2020-01-02"` resolves as
month 1, day 2, while `"2020-15-01"` falls through to `%Y-%d-%m`.
Whenever any pattern succeeds, the result is a reformatted date. -/
theorem claim_C8_format_order :
    (∀ (s : String) (y m d : Nat), strptimeValid .dmY s = some (y, m, d) →
      tryFormats formats_to_try s = some (isoStr y m d)) ∧
    parse_date (.str "01/02/2020") = "2020-02-01" ∧
    parse_date (.str "2020-01-02") = "2020-01-02" ∧
    parse_date (.str "2020-15-01") = "2020-01-15" ∧
    (∀ f ∈ formats_to_try, ∀ (s : String) (y m d : Nat),
      strptimeValid f s = some (y, m, d) →
      ∃ out, tryFormats formats_to_try s = some out ∧
        ∃ y2 m2 d2, out = isoStr y2 m2 d2) := by
  refine ⟨fun s y m d h => tryFormats_dmY_first h, by rfl, by rfl, by rfl,
    fun f hf s y m d h => ?_⟩
  cases htf : tryFormats formats_to_try s with
  | none =>
    rw [tryFormats_none htf f hf] at h
    exact Option.noConfusion h
  | some out => exact ⟨out, rfl, tryFormats_iso htf⟩

/-- C8 (witness): the slash day-before-month priority applied at
`"15/03/2021"`. -/
theorem claim_C8_witness :
    tryFormats formats_to_try "15/03/2021" = some (isoStr 2021 3 15) :=
  claim_C8_format_order.1 "15/03/2021" 2021 3 15 (by rfl)

/-- C9: `parse_date` is total: non-string input gives the placeholder, as
do the empty string and strings that become empty after comma-stripping
and trimming; supported patterns reformat to `YYYY-MM-DD` (three
round-trip examples); anything else falls back to the processed original
string; and every string input lands in one of those three shapes. -/
theorem claim_C9_parse_date_total :
    (∀ v : PyVal, (∀ s, v ≠ PyVal.str s) →
      parse_date v = UNKNOWN_DATE_PLACEHOLDER) ∧
    parse_date (.str "") = UNKNOWN_DATE_PLACEHOLDER ∧
    (∀ s, preprocessDate s = "" →
      parse_date (.str s) = UNKNOWN_DATE_PLACEHOLDER) ∧
    parse_date (.str "15/03/2021") = "2021-03-15" ∧
    parse_date (.str "2022-07-25") = "2022-07-25" ∧
    parse_date (.str "27 Apr 2020") = "2020-04-27" ∧
    parse_date (.str "not-a-date") = "not-a-date" ∧
    (∀ s, parse_date (.str s) = UNKNOWN_DATE_PLACEHOLDER ∨
      parse_date (.str s) = preprocessDate s ∨
      ∃ y m d, parse_date (.str s) = isoStr y m d) := by
  refine ⟨fun v hv => ?_, by rfl, fun s hp => ?_, by rfl, by rfl, by rfl,
    by rfl, fun s => ?_⟩
  · cases v with
    | str s => exact absurd rfl (hv s)
    | pyNone => rfl
    | int n => rfl
  · rw [parse_date_str]
    by_cases hs : s = ""
    · rw [if_pos hs]
    · rw [if_neg hs, if_pos hp]
  · rw [parse_date_str]
    by_cases hs : s = ""
    · rw [if_pos hs]
      exact Or.inl rfl
    · rw [if_neg hs]
      by_cases hp : preprocessDate s = ""
      · rw [if_pos hp]
        exact Or.inl rfl
      · rw [if_neg hp]
        cases htf : tryFormats formats_to_try (preprocessDate s) with
        | none => exact Or.inr (Or.inl rfl)
        | some out =>
          right
          right
          obtain ⟨y, m, d, rfl⟩ := tryFormats_iso htf
          exact ⟨y, m, d, rfl⟩

/-- C9 (witness): the non-string and preprocessing-empty cases applied at
concrete inputs. -/
theorem claim_C9_witness :
    parse_date (.int 0) = UNKNOWN_DATE_PLACEHOLDER ∧
    parse_date (.str " ,, ") = UNKNOWN_DATE_PLACEHOLDER :=
  ⟨claim_C9_parse_date_total.1 (.int 0)
      (fun s h => PyVal.noConfusion h),
    claim_C9_parse_date_total.2.2.1 " ,, " (by rfl)⟩

end DrugGraph
